import Mathlib

/-!
Shallow embedding of the `json-structural-diff` crate (src/src/diff.rs and
src/src/colorize.rs), together with a model of its external sequence-alignment
dependency (the `difflib` crate's `SequenceMatcher`, a port of Python's
`difflib` without junk handling).

Modelling conventions:
  * `serde_json::Value` becomes the inductive `JValue`; JSON numbers are
    modelled as integers (the diff engine only compares and prints them).
  * `serde_json::Map<String, Value>` is built without the `preserve_order`
    feature, i.e. it is a `BTreeMap<String, Value>`: an association list kept
    sorted by key, with sorted insertion (`mapInsert`) and sorted iteration.
    (The crate's own test `diff([{a,b},{a,b}], [{a,b},{a,b}]) = None` passes
    only with sorted key iteration, not with insertion-ordered iteration.)
  * `f64` scores become exact rationals (`Rat`); the `f64::EPSILON` tolerance
    test in `find_matching_object` is kept as the rational `1 / 2^52`.
  * `usize` wrapping subtraction is modelled as arithmetic modulo `2^64`.
  * Code that can panic (`unwrap`, indexing, `assert!`) is modelled in the
    `Option` monad, `none` meaning a panic.  Recursion of the engine is fed
    by explicit fuel (the Rust recursion terminates on tree depth); `none`
    also covers fuel exhaustion, so `isSome` results witness real runs.
-/

/-- Model of `serde_json::Value`.  Object fields are an ordered association
list; values built by the engine keep them sorted by key (BTreeMap). -/
inductive JValue where
  | null : JValue
  | bool (b : Bool) : JValue
  | num (n : Int) : JValue
  | str (s : String) : JValue
  | arr (items : List JValue) : JValue
  | obj (fields : List (String × JValue)) : JValue
  deriving Repr

abbrev JMap := List (String × JValue)

mutual
/-- Decidable equality of JSON values (`serde_json::Value` is `PartialEq`). -/
def jvalDecEq : (a b : JValue) → Decidable (a = b)
  | .null, .null => isTrue rfl
  | .null, .bool _ => isFalse nofun
  | .null, .num _ => isFalse nofun
  | .null, .str _ => isFalse nofun
  | .null, .arr _ => isFalse nofun
  | .null, .obj _ => isFalse nofun
  | .bool _, .null => isFalse nofun
  | .bool a, .bool b =>
    match decEq a b with
    | isTrue h => isTrue (h ▸ rfl)
    | isFalse h => isFalse (fun hh => h (JValue.bool.inj hh))
  | .bool _, .num _ => isFalse nofun
  | .bool _, .str _ => isFalse nofun
  | .bool _, .arr _ => isFalse nofun
  | .bool _, .obj _ => isFalse nofun
  | .num _, .null => isFalse nofun
  | .num _, .bool _ => isFalse nofun
  | .num a, .num b =>
    match decEq a b with
    | isTrue h => isTrue (h ▸ rfl)
    | isFalse h => isFalse (fun hh => h (JValue.num.inj hh))
  | .num _, .str _ => isFalse nofun
  | .num _, .arr _ => isFalse nofun
  | .num _, .obj _ => isFalse nofun
  | .str _, .null => isFalse nofun
  | .str _, .bool _ => isFalse nofun
  | .str _, .num _ => isFalse nofun
  | .str a, .str b =>
    match decEq a b with
    | isTrue h => isTrue (h ▸ rfl)
    | isFalse h => isFalse (fun hh => h (JValue.str.inj hh))
  | .str _, .arr _ => isFalse nofun
  | .str _, .obj _ => isFalse nofun
  | .arr _, .null => isFalse nofun
  | .arr _, .bool _ => isFalse nofun
  | .arr _, .num _ => isFalse nofun
  | .arr _, .str _ => isFalse nofun
  | .arr a, .arr b =>
    match jvalListDecEq a b with
    | isTrue h => isTrue (h ▸ rfl)
    | isFalse h => isFalse (fun hh => h (JValue.arr.inj hh))
  | .arr _, .obj _ => isFalse nofun
  | .obj _, .null => isFalse nofun
  | .obj _, .bool _ => isFalse nofun
  | .obj _, .num _ => isFalse nofun
  | .obj _, .str _ => isFalse nofun
  | .obj _, .arr _ => isFalse nofun
  | .obj a, .obj b =>
    match jvalFieldsDecEq a b with
    | isTrue h => isTrue (h ▸ rfl)
    | isFalse h => isFalse (fun hh => h (JValue.obj.inj hh))

/-- Decidable equality of lists of JSON values. -/
def jvalListDecEq : (a b : List JValue) → Decidable (a = b)
  | [], [] => isTrue rfl
  | [], _ :: _ => isFalse nofun
  | _ :: _, [] => isFalse nofun
  | x :: xs, y :: ys =>
    match jvalDecEq x y with
    | isFalse h => isFalse (fun hh => by injection hh with h1 h2; exact h h1)
    | isTrue h1 =>
      match jvalListDecEq xs ys with
      | isTrue h2 => isTrue (h1 ▸ h2 ▸ rfl)
      | isFalse h => isFalse (fun hh => by injection hh with _ h2; exact h h2)

/-- Decidable equality of object field lists. -/
def jvalFieldsDecEq : (a b : List (String × JValue)) → Decidable (a = b)
  | [], [] => isTrue rfl
  | [], _ :: _ => isFalse nofun
  | _ :: _, [] => isFalse nofun
  | (k1, v1) :: xs, (k2, v2) :: ys =>
    match decEq k1 k2 with
    | isFalse h => isFalse (fun hh => by injection hh with h1 h2; injection h1 with hk hv; exact h hk)
    | isTrue hk =>
      match jvalDecEq v1 v2 with
      | isFalse h => isFalse (fun hh => by injection hh with h1 h2; injection h1 with hk' hv; exact h hv)
      | isTrue hv =>
        match jvalFieldsDecEq xs ys with
        | isTrue h2 => isTrue (hk ▸ hv ▸ h2 ▸ rfl)
        | isFalse h => isFalse (fun hh => by injection hh with _ h2; exact h h2)
end

instance : DecidableEq JValue := jvalDecEq

/-- Digit-list construction for decimal notation; the fuel argument only
drives structural recursion and any `fuel > n` computes all digits. -/
def natReprGo : Nat → Nat → List Char
  | 0, _ => []
  | fuel + 1, n =>
    if n < 10 then [Nat.digitChar n]
    else natReprGo fuel (n / 10) ++ [Nat.digitChar (n % 10)]

/-- Decimal representation of a natural number (Rust `u64`/`Display`). -/
def natRepr (n : Nat) : String :=
  String.mk (natReprGo (n + 1) n)

/-- Decimal representation of an integer (Rust `i64` `Display`). -/
def intRepr : Int → String
  | .ofNat n => natRepr n
  | .negSucc n => "-" ++ natRepr (n + 1)

/-- Hex digit pair for a byte below 0x20, used by the JSON string escape. -/
def hexByte (n : Nat) : List Char :=
  [Nat.digitChar (n / 16), Nat.digitChar (n % 16)]

/-- JSON escaping of one character, as performed by `serde_json` when
serializing strings. -/
def escapeChar (c : Char) : List Char :=
  if c = '"' then ['\\', '"']
  else if c = '\\' then ['\\', '\\']
  else if c = '\n' then ['\\', 'n']
  else if c = '\r' then ['\\', 'r']
  else if c = '\t' then ['\\', 't']
  else if c.toNat = 8 then ['\\', 'b']
  else if c.toNat = 12 then ['\\', 'f']
  else if c.toNat < 32 then ['\\', 'u', '0', '0'] ++ hexByte c.toNat
  else [c]

/-- JSON serialization of a string literal, quotes included. -/
def serializeString (s : String) : String :=
  "\"" ++ String.mk (s.data.foldr (fun c acc => escapeChar c ++ acc) []) ++ "\""

mutual
/-- Model of `Value::to_string()`: compact `serde_json` serialization. -/
def serialize : JValue → String
  | .null => "null"
  | .bool true => "true"
  | .bool false => "false"
  | .num n => intRepr n
  | .str s => serializeString s
  | .arr items => "[" ++ serializeList items ++ "]"
  | .obj fields => "\x7b" ++ serializeFields fields ++ "\x7d"

/-- Comma-joined serialization of array elements. -/
def serializeList : List JValue → String
  | [] => ""
  | [v] => serialize v
  | v :: rest => serialize v ++ "," ++ serializeList rest

/-- Comma-joined serialization of object fields. -/
def serializeFields : List (String × JValue) → String
  | [] => ""
  | [(k, v)] => serializeString k ++ ":" ++ serialize v
  | (k, v) :: rest => serializeString k ++ ":" ++ serialize v ++ "," ++ serializeFields rest
end

mutual
/-- Depth of a JSON tree; used to compute sufficient recursion fuel. -/
def jdepth : JValue → Nat
  | .null => 0
  | .bool _ => 0
  | .num _ => 0
  | .str _ => 0
  | .arr items => 1 + jdepthList items
  | .obj fields => 1 + jdepthFields fields

/-- Maximal depth of a list of JSON values. -/
def jdepthList : List JValue → Nat
  | [] => 0
  | v :: rest => max (jdepth v) (jdepthList rest)

/-- Maximal depth of object field values. -/
def jdepthFields : List (String × JValue) → Nat
  | [] => 0
  | (_, v) :: rest => max (jdepth v) (jdepthFields rest)
end

/-- Lookup in a `BTreeMap<String, Value>` model (`Map::get`). -/
def mapGet (k : String) : JMap → Option JValue
  | [] => none
  | (k', v) :: rest => if k' = k then some v else mapGet k rest

/-- Model of `Map::contains_key`. -/
def mapContains (k : String) (m : JMap) : Bool :=
  (mapGet k m).isSome

/-- Lexicographic comparison of character lists by code point; on UTF-8
strings this is exactly the byte order `Ord` that Rust's `BTreeMap<String, _>`
uses. -/
def charListLt : List Char → List Char → Bool
  | [], [] => false
  | [], _ :: _ => true
  | _ :: _, [] => false
  | a :: as_, b :: bs =>
    if a.toNat < b.toNat then true
    else if b.toNat < a.toNat then false
    else charListLt as_ bs

/-- String order of the `BTreeMap` model. -/
def strLt (a b : String) : Bool :=
  charListLt a.data b.data

/-- Sorted insertion into the `BTreeMap<String, Value>` model
(`Map::insert`, replacing the value when the key is already present). -/
def mapInsert (k : String) (v : JValue) : JMap → JMap
  | [] => [(k, v)]
  | (k', v') :: rest =>
    if k = k' then (k, v) :: rest
    else if strLt k k' then (k, v) :: (k', v') :: rest
    else (k', v') :: mapInsert k v rest


/-! ## Exact rational scores

The engine's `f64` score arithmetic only adds, subtracts, multiplies,
divides by 5, clamps and compares values; on those operations `f64`
behaves (for the magnitudes arising here) like exact rational arithmetic,
which we implement with kernel-reducible normalization. -/

/-- Euclid's algorithm with structural fuel; `fuel > a` computes `gcd a b`
(the first argument strictly decreases each round). -/
def gcdGo : Nat → Nat → Nat → Nat
  | 0, _, b => b
  | fuel + 1, a, b => if a = 0 then b else gcdGo fuel (b % a) a

/-- Greatest common divisor, kernel-reducible. -/
def natGcd (a b : Nat) : Nat :=
  gcdGo (a + 1) a b

/-- An exact rational score: numerator and positive denominator, kept in
lowest terms by construction. -/
structure Score where
  num : Int
  den : Nat
  deriving DecidableEq, Repr

/-- Reduce a fraction to lowest terms. -/
def Score.normalize (n : Int) (d : Nat) : Score :=
  let g := natGcd n.natAbs d
  if g = 0 then Score.mk n d else Score.mk (n / (g : Int)) (d / g)

instance : OfNat Score n := ⟨Score.mk n 1⟩

instance : NatCast Score := ⟨fun n => Score.mk n 1⟩

/-- Negation of a score. -/
def Score.neg (a : Score) : Score := Score.mk (-a.num) a.den

instance : Neg Score := ⟨Score.neg⟩

/-- Addition of scores. -/
def Score.add (a b : Score) : Score :=
  Score.normalize (a.num * (b.den : Int) + b.num * (a.den : Int)) (a.den * b.den)

instance : Add Score := ⟨Score.add⟩

/-- Subtraction of scores. -/
def Score.sub (a b : Score) : Score := a + (-b)

instance : Sub Score := ⟨Score.sub⟩

/-- Multiplication of scores. -/
def Score.mul (a b : Score) : Score :=
  Score.normalize (a.num * b.num) (a.den * b.den)

instance : Mul Score := ⟨Score.mul⟩

/-- Division of scores (only ever used with a nonzero divisor). -/
def Score.div (a b : Score) : Score :=
  let n := a.num * (b.den : Int)
  let d := b.num * (a.den : Int)
  if d < 0 then Score.normalize (-n) (-d).toNat else Score.normalize n d.toNat

instance : Div Score := ⟨Score.div⟩

/-- Strict comparison by cross multiplication. -/
def Score.blt (a b : Score) : Bool :=
  a.num * (b.den : Int) < b.num * (a.den : Int)

/-- Non-strict comparison by cross multiplication. -/
def Score.ble (a b : Score) : Bool :=
  a.num * (b.den : Int) ≤ b.num * (a.den : Int)

instance : LT Score := ⟨fun a b => Score.blt a b = true⟩

instance : LE Score := ⟨fun a b => Score.ble a b = true⟩

instance (a b : Score) : Decidable (a < b) :=
  inferInstanceAs (Decidable (Score.blt a b = true))

instance (a b : Score) : Decidable (a ≤ b) :=
  inferInstanceAs (Decidable (Score.ble a b = true))

/-- Absolute value of a score. -/
def Score.abs (a : Score) : Score := Score.mk (a.num.natAbs : Int) a.den

/-- Model of `f64::max` (`self.max(other)`, NaN aside). -/
def Score.fmax (a b : Score) : Score := if a ≤ b then b else a

/-- Model of `f64::clamp(self, min, max)`. -/
def Score.clamp (x mn mx : Score) : Score :=
  if x < mn then mn else if mx < x then mx else x

/-- Rational value of `f64::EPSILON`. -/
def f64Epsilon : Score := Score.mk 1 (2 ^ 52)

/-! ## Model of the external sequence aligner

The `difflib` crate's `SequenceMatcher` (a port of Python `difflib` without
junk handling), applied by `array_diff` to the two token sequences.  The
matching-block recursion is written in-order (left window, match, right
window), which produces exactly the sorted list that the port obtains by
processing a work queue and sorting afterwards. -/

/-- One matching block `(first_start, second_start, size)`. -/
structure DMatch where
  firstStart : Nat
  secondStart : Nat
  size : Nat
  deriving DecidableEq, Repr

/-- Edit operation tags produced by `get_opcodes`. -/
inductive DTag where
  | equal : DTag
  | delete : DTag
  | insert : DTag
  | replace : DTag
  deriving DecidableEq, Repr

/-- One opcode `(tag, first_start, first_end, second_start, second_end)`. -/
structure DOpcode where
  tag : DTag
  firstStart : Nat
  firstEnd : Nat
  secondStart : Nat
  secondEnd : Nat
  deriving DecidableEq, Repr

/-- Lookup in the `j2len` dictionary of `find_longest_match` (missing key
means 0, as `j2len.get(&j).unwrap_or(&0)` does). -/
def j2find : List (Nat × Nat) → Nat → Nat
  | [], _ => 0
  | (j', k') :: rest, j => if j' = j then k' else j2find rest j

/-- Inner loop of `find_longest_match`: walk the ascending positions `js` of
the current first-sequence element inside the second sequence, building the
new `j2len` dictionary and updating the running best match. -/
def flmJsGo (oldJ2len : List (Nat × Nat)) (i : Nat) :
    List Nat → List (Nat × Nat) → DMatch → List (Nat × Nat) × DMatch
  | [], acc, best => (acc, best)
  | j :: rest, acc, best =>
    let k := (if j = 0 then 0 else j2find oldJ2len (j - 1)) + 1
    let best' := if best.size < k then DMatch.mk (i + 1 - k) (j + 1 - k) k else best
    flmJsGo oldJ2len i rest ((j, k) :: acc) best'

/-- Outer loop of `find_longest_match` over the first-sequence rows. -/
def flmOuterGo (a b : List String) (blo bhi : Nat) :
    List Nat → List (Nat × Nat) → DMatch → DMatch
  | [], _, best => best
  | i :: rest, j2len, best =>
    let js := (List.range bhi).filter fun j =>
      decide (blo ≤ j) && decide (b.getD j "" = a.getD i "")
    let res := flmJsGo j2len i js [] best
    flmOuterGo a b blo bhi rest res.1 res.2

/-- Dynamic-programming core of `find_longest_match` on the window
`[alo, ahi) × [blo, bhi)`. -/
def flmCore (a b : List String) (alo ahi blo bhi : Nat) : DMatch :=
  flmOuterGo a b blo bhi (List.range' alo (ahi - alo)) [] (DMatch.mk alo blo 0)

/-- Left extension loop of `find_longest_match` (with no junk, the loop
condition is just element equality at the preceding positions).  The loop
decrements `firstStart` while `alo < firstStart`, so `firstStart` rounds of
fuel always run it to completion. -/
def extLeftGo (a b : List String) (alo blo : Nat) : Nat → DMatch → DMatch
  | 0, m => m
  | fuel + 1, m =>
    if alo < m.firstStart ∧ blo < m.secondStart ∧
        a.getD (m.firstStart - 1) "" = b.getD (m.secondStart - 1) "" then
      extLeftGo a b alo blo fuel
        (DMatch.mk (m.firstStart - 1) (m.secondStart - 1) (m.size + 1))
    else m

/-- The left extension, run to completion. -/
def extLeft (a b : List String) (alo blo : Nat) (m : DMatch) : DMatch :=
  extLeftGo a b alo blo m.firstStart m

/-- Right extension loop of `find_longest_match`; it increments the size
while `firstStart + size < ahi`, so `ahi - (firstStart + size)` rounds of
fuel always run it to completion. -/
def extRightGo (a b : List String) (ahi bhi : Nat) : Nat → DMatch → DMatch
  | 0, m => m
  | fuel + 1, m =>
    if m.firstStart + m.size < ahi ∧ m.secondStart + m.size < bhi ∧
        a.getD (m.firstStart + m.size) "" = b.getD (m.secondStart + m.size) "" then
      extRightGo a b ahi bhi fuel (DMatch.mk m.firstStart m.secondStart (m.size + 1))
    else m

/-- The right extension, run to completion. -/
def extRight (a b : List String) (ahi bhi : Nat) (m : DMatch) : DMatch :=
  extRightGo a b ahi bhi (ahi - (m.firstStart + m.size)) m

/-- Model of `SequenceMatcher::find_longest_match` on a window. -/
def findLongestMatch (a b : List String) (alo ahi blo bhi : Nat) : DMatch :=
  extRight a b ahi bhi (extLeft a b alo blo (flmCore a b alo ahi blo bhi))

/-- Window bounds of a candidate best match: either it lies inside the
window, or it is still the initial `(alo, blo, 0)` placeholder. -/
def BestBounds (alo ahi blo bhi : Nat) (m : DMatch) : Prop :=
  (alo ≤ m.firstStart ∧ blo ≤ m.secondStart ∧
    m.firstStart + m.size ≤ ahi ∧ m.secondStart + m.size ≤ bhi) ∨
  (m.firstStart = alo ∧ m.secondStart = blo ∧ m.size = 0)

/-- Numeric bounds carried by one `j2len` entry when the next row is `i`. -/
def EntryBounds (alo blo bhi i : Nat) (p : Nat × Nat) : Prop :=
  1 ≤ p.2 ∧ alo + p.2 ≤ i ∧ blo + p.2 ≤ p.1 + 1 ∧ p.1 < bhi

theorem j2find_mem {l : List (Nat × Nat)} {j : Nat} (h : j2find l j ≠ 0) :
    (j, j2find l j) ∈ l := by
  induction l with
  | nil => simp [j2find] at h
  | cons p rest ih =>
    obtain ⟨j', k'⟩ := p
    by_cases hj : j' = j
    · subst hj
      simp [j2find]
    · simp only [j2find, hj, if_false] at h ⊢
      exact List.mem_cons_of_mem _ (ih h)

theorem flmJsGo_bounds (alo ahi blo bhi : Nat) (old : List (Nat × Nat)) (i : Nat)
    (hold : ∀ p ∈ old, EntryBounds alo blo bhi i p) (hi1 : alo ≤ i) (hi2 : i < ahi) :
    ∀ (js : List Nat), (∀ j ∈ js, blo ≤ j ∧ j < bhi) →
    ∀ (acc : List (Nat × Nat)) (best : DMatch),
      (∀ p ∈ acc, EntryBounds alo blo bhi (i + 1) p) →
      BestBounds alo ahi blo bhi best →
      (∀ p ∈ (flmJsGo old i js acc best).1, EntryBounds alo blo bhi (i + 1) p) ∧
      BestBounds alo ahi blo bhi (flmJsGo old i js acc best).2 := by
  intro js
  induction js with
  | nil => intro _ acc best hacc hbest; exact ⟨hacc, hbest⟩
  | cons j rest ih =>
    intro hjs acc best hacc hbest
    obtain ⟨hjb, hjh⟩ := hjs j (List.mem_cons_self _ _)
    have hrest : ∀ x ∈ rest, blo ≤ x ∧ x < bhi := fun x hx => hjs x (List.mem_cons_of_mem _ hx)
    have hkbound : 1 ≤ (if j = 0 then 0 else j2find old (j - 1)) + 1 ∧
        alo + ((if j = 0 then 0 else j2find old (j - 1)) + 1) ≤ i + 1 ∧
        blo + ((if j = 0 then 0 else j2find old (j - 1)) + 1) ≤ j + 1 := by
      by_cases hj0 : j = 0
      · rw [if_pos hj0]
        subst hj0
        omega
      · rw [if_neg hj0]
        by_cases hz : j2find old (j - 1) = 0
        · rw [hz]; omega
        · have hm := hold _ (j2find_mem hz)
          unfold EntryBounds at hm
          simp only at hm
          omega
    simp only [flmJsGo]
    have hacc' : ∀ p ∈ (j, (if j = 0 then 0 else j2find old (j - 1)) + 1) :: acc,
        EntryBounds alo blo bhi (i + 1) p := by
      intro p hp
      rcases List.mem_cons.mp hp with h | h
      · subst h; exact ⟨hkbound.1, hkbound.2.1, hkbound.2.2, hjh⟩
      · exact hacc p h
    by_cases hcmp : best.size < (if j = 0 then 0 else j2find old (j - 1)) + 1
    · rw [if_pos hcmp]
      apply ih hrest _ _ hacc'
      left
      simp only
      omega
    · rw [if_neg hcmp]
      exact ih hrest _ _ hacc' hbest

theorem flmOuterGo_bounds (a b : List String) (alo ahi blo bhi : Nat) :
    ∀ (n i0 : Nat), alo ≤ i0 → i0 + n ≤ ahi →
    ∀ (j2len : List (Nat × Nat)) (best : DMatch),
      (∀ p ∈ j2len, EntryBounds alo blo bhi i0 p) →
      BestBounds alo ahi blo bhi best →
      BestBounds alo ahi blo bhi
        (flmOuterGo a b blo bhi (List.range' i0 n) j2len best) := by
  intro n
  induction n with
  | zero => intro i0 _ _ j2len best _ hbest; simpa [flmOuterGo] using hbest
  | succ n ih =>
    intro i0 h1 h2 j2len best hold hbest
    rw [List.range'_succ]
    simp only [flmOuterGo]
    have hjs : ∀ j ∈ (List.range bhi).filter
        (fun j => decide (blo ≤ j) && decide (b.getD j "" = a.getD i0 "")),
        blo ≤ j ∧ j < bhi := by
      intro j hj
      have h' := List.mem_filter.mp hj
      have hr := List.mem_range.mp h'.1
      have hb' := h'.2
      simp only [Bool.and_eq_true, decide_eq_true_eq] at hb'
      exact ⟨hb'.1, hr⟩
    have hspec := flmJsGo_bounds alo ahi blo bhi j2len i0 hold h1 (by omega)
      _ hjs [] best (by intro p hp; simp at hp) hbest
    exact ih (i0 + 1) (by omega) (by omega) _ _ hspec.1 hspec.2

theorem flmCore_bounds (a b : List String) (alo ahi blo bhi : Nat) :
    BestBounds alo ahi blo bhi (flmCore a b alo ahi blo bhi) := by
  unfold flmCore
  by_cases h : alo ≤ ahi
  · exact flmOuterGo_bounds a b alo ahi blo bhi (ahi - alo) alo (le_refl _) (by omega)
      [] _ (by intro p hp; simp at hp) (Or.inr ⟨rfl, rfl, rfl⟩)
  · have hz : ahi - alo = 0 := by omega
    rw [hz]
    simp only [List.range', flmOuterGo]
    exact Or.inr ⟨rfl, rfl, rfl⟩

theorem extLeftGo_bounds (a b : List String) (alo blo ahi bhi : Nat) :
    ∀ (fuel : Nat) (m : DMatch), BestBounds alo ahi blo bhi m →
      BestBounds alo ahi blo bhi (extLeftGo a b alo blo fuel m) := by
  intro fuel
  induction fuel with
  | zero => intro m hm; exact hm
  | succ fuel ih =>
    intro m hm
    rw [extLeftGo]
    by_cases h : alo < m.firstStart ∧ blo < m.secondStart ∧
        a.getD (m.firstStart - 1) "" = b.getD (m.secondStart - 1) ""
    · rw [if_pos h]
      apply ih
      unfold BestBounds at hm ⊢
      left
      obtain ⟨h1, h2, h3⟩ := h
      rcases hm with ⟨a1, a2, a3, a4⟩ | ⟨a1, a2, a3⟩ <;> simp only <;> omega
    · rw [if_neg h]
      exact hm

theorem extLeft_bounds (a b : List String) (alo blo ahi bhi : Nat) :
    ∀ (m : DMatch), BestBounds alo ahi blo bhi m →
      BestBounds alo ahi blo bhi (extLeft a b alo blo m) := by
  intro m hm
  exact extLeftGo_bounds a b alo blo ahi bhi m.firstStart m hm

theorem extRightGo_bounds (a b : List String) (alo blo ahi bhi : Nat) :
    ∀ (fuel : Nat) (m : DMatch), BestBounds alo ahi blo bhi m →
      BestBounds alo ahi blo bhi (extRightGo a b ahi bhi fuel m) := by
  intro fuel
  induction fuel with
  | zero => intro m hm; exact hm
  | succ fuel ih =>
    intro m hm
    rw [extRightGo]
    by_cases h : m.firstStart + m.size < ahi ∧ m.secondStart + m.size < bhi ∧
        a.getD (m.firstStart + m.size) "" = b.getD (m.secondStart + m.size) ""
    · rw [if_pos h]
      apply ih
      unfold BestBounds at hm ⊢
      left
      obtain ⟨h1, h2, h3⟩ := h
      rcases hm with ⟨a1, a2, a3, a4⟩ | ⟨a1, a2, a3⟩ <;> simp only <;> omega
    · rw [if_neg h]
      exact hm

theorem extRight_bounds (a b : List String) (alo blo ahi bhi : Nat) :
    ∀ (m : DMatch), BestBounds alo ahi blo bhi m →
      BestBounds alo ahi blo bhi (extRight a b ahi bhi m) := by
  intro m hm
  exact extRightGo_bounds a b alo blo ahi bhi (ahi - (m.firstStart + m.size)) m hm

/-- Unconditional window bounds of `find_longest_match`. -/
theorem findLongestMatch_bounds (a b : List String) (alo ahi blo bhi : Nat) :
    BestBounds alo ahi blo bhi (findLongestMatch a b alo ahi blo bhi) := by
  unfold findLongestMatch
  exact extRight_bounds a b alo blo ahi bhi _
    (extLeft_bounds a b alo blo ahi bhi _ (flmCore_bounds a b alo ahi blo bhi))

/-- Recursive decomposition of `get_matching_blocks`: find the longest match
in the window, then recurse into the left and right sub-windows (only when
both coordinates strictly shrink, as the queue in the port does).  The
in-order traversal yields exactly the sorted block list of the port. -/
def matchingBlocksGo (a b : List String) : Nat → Nat → Nat → Nat → Nat → List DMatch
  | 0, _, _, _, _ => []
  | fuel + 1, alo, ahi, blo, bhi =>
    let m := findLongestMatch a b alo ahi blo bhi
    if 0 < m.size then
      (if alo < m.firstStart ∧ blo < m.secondStart then
          matchingBlocksGo a b fuel alo m.firstStart blo m.secondStart
        else []) ++
      [m] ++
      (if m.firstStart + m.size < ahi ∧ m.secondStart + m.size < bhi then
          matchingBlocksGo a b fuel (m.firstStart + m.size) ahi (m.secondStart + m.size) bhi
        else [])
    else []

/-- The block decomposition with enough fuel: every recursive call strictly
shrinks `(ahi - alo) + (bhi - blo)` (by `findLongestMatch_bounds`), so the
fuel below is never exhausted and the recursion runs exactly as the
queue-driven loop of the port does. -/
def matchingBlocksRec (a b : List String) (alo ahi blo bhi : Nat) : List DMatch :=
  matchingBlocksGo a b ((ahi - alo) + (bhi - blo) + 1) alo ahi blo bhi

/-- Adjacent-block merging pass of `get_matching_blocks`, threading the
running `(first_start, second_start, size)` triple. -/
def mergeBlocks : List DMatch → Nat × Nat × Nat → List DMatch
  | [], (fs, ss, size) => if size ≠ 0 then [DMatch.mk fs ss size] else []
  | m :: rest, (fs, ss, size) =>
    if fs + size = m.firstStart ∧ ss + size = m.secondStart then
      mergeBlocks rest (fs, ss, size + m.size)
    else
      (if size ≠ 0 then [DMatch.mk fs ss size] else []) ++
        mergeBlocks rest (m.firstStart, m.secondStart, m.size)

/-- Model of `SequenceMatcher::get_matching_blocks` (sorted blocks, merged,
with the terminating zero-size sentinel). -/
def getMatchingBlocks (a b : List String) : List DMatch :=
  mergeBlocks (matchingBlocksRec a b 0 a.length 0 b.length) (0, 0, 0) ++
    [DMatch.mk a.length b.length 0]

/-- Opcode generation loop of `SequenceMatcher::get_opcodes`. -/
def opcodesLoop : List DMatch → Nat → Nat → List DOpcode
  | [], _, _ => []
  | m :: rest, i, j =>
    (if i < m.firstStart ∧ j < m.secondStart then
        [DOpcode.mk .replace i m.firstStart j m.secondStart]
      else if i < m.firstStart then
        [DOpcode.mk .delete i m.firstStart j m.secondStart]
      else if j < m.secondStart then
        [DOpcode.mk .insert i m.firstStart j m.secondStart]
      else []) ++
    (if 0 < m.size then
        [DOpcode.mk .equal m.firstStart (m.firstStart + m.size)
          m.secondStart (m.secondStart + m.size)]
      else []) ++
    opcodesLoop rest (m.firstStart + m.size) (m.secondStart + m.size)

/-- Model of `SequenceMatcher::new(&seq1, &seq2).get_opcodes()`. -/
def getOpcodes (a b : List String) : List DOpcode :=
  opcodesLoop (getMatchingBlocks a b) 0 0

/-! ## The diff engine (src/src/diff.rs) -/

/-- Model of `Value::is_null`. -/
def JValue.isNull : JValue → Bool
  | .null => true
  | _ => false

/-- Model of `Value::is_boolean`. -/
def JValue.isBoolean : JValue → Bool
  | .bool _ => true
  | _ => false

/-- Model of `Value::is_number`. -/
def JValue.isNumber : JValue → Bool
  | .num _ => true
  | _ => false

/-- Model of `Value::is_string`. -/
def JValue.isString : JValue → Bool
  | .str _ => true
  | _ => false

/-- Model of `Value::is_array`. -/
def JValue.isArray : JValue → Bool
  | .arr _ => true
  | _ => false

/-- Model of `Value::is_object`. -/
def JValue.isObject : JValue → Bool
  | .obj _ => true
  | _ => false

/-- Model of `JsonDiff::check_type` (diff.rs lines 101-108): the OR of the
six pairwise category-flag equalities, exactly as written in the source. -/
def check_type (item1 item2 : JValue) : Bool :=
  (item1.isNull == item2.isNull)
    || (item1.isBoolean == item2.isBoolean)
    || (item1.isNumber == item2.isNumber)
    || (item1.isString == item2.isString)
    || (item1.isArray == item2.isArray)
    || (item1.isObject == item2.isObject)

/-- Model of `struct JsonDiff` (the `diff_with_score` result pair). -/
structure ScoredDiff where
  score : Score
  diff : Option JValue
  deriving DecidableEq, Repr

/-- Model of `struct BestMatch`. -/
structure BestMatch where
  score : Score
  key : String
  indexDistance : Nat
  deriving DecidableEq, Repr

/-- The `usize` modulus, for modelling `usize::wrapping_sub`. -/
def USIZE : Nat := 2 ^ 64

/-- The recursion signature of `JsonDiff::diff`: the nested comparisons the
other engine functions invoke.  `none` models a panic or exhausted fuel. -/
abbrev DiffFun := JValue → JValue → Bool → Option ScoredDiff

/-- Loop body list for `find_matching_object`: the enumerated entries of the
fuzzy-originals map (BTreeMap iteration, i.e. ascending key order). -/
def fmoGo (next : DiffFun) (item : JValue) (index : Nat) :
    List (Nat × String × JValue) → Option BestMatch → Option (Option BestMatch)
  | [], best => some best
  | (matchIndex, key, candidate) :: rest, best =>
    if key ≠ "__next" then
      let indexDistance := (matchIndex + USIZE - index) % USIZE
      if check_type item candidate then
        match next item candidate false with
        | none => none
        | some sd =>
          let takeIt : Bool :=
            match best with
            | none => true
            | some v =>
              decide (v.score < sd.score) ||
                (decide ((sd.score - v.score).abs < f64Epsilon) &&
                  decide (indexDistance < v.indexDistance))
          fmoGo next item index rest
            (if takeIt then some (BestMatch.mk sd.score key indexDistance) else best)
      else fmoGo next item index rest best
    else fmoGo next item index rest best

/-- Model of `JsonDiff::find_matching_object` (diff.rs lines 110-137).  The
outer `Option` is panic/fuel propagation from the nested `diff` calls. -/
def find_matching_object (next : DiffFun) (item : JValue) (index : Nat)
    (fuzzyOriginals : JMap) : Option (Option BestMatch) :=
  fmoGo next item index (fuzzyOriginals.enum) none

/-- Model of `Value::as_u64` on the counter value stored under `"__next"`. -/
def jAsU64 : JValue → Option Nat
  | .num n => if 0 ≤ n then some n.toNat else none
  | _ => none

/-- One state of the scalarization loop: tokens emitted so far, the
`scalar_values` map and the `originals` map. -/
abbrev ScalState := List String × JMap × JMap

/-- The fuzzy-matching step of the `scalarize` loop body (diff.rs lines
155-162): reuse the best-matching unclaimed token when its score clears 40. -/
def scalarizeStepFuzzy (next : DiffFun) (item : JValue) (index : Nat)
    (value0 : Option String) (originals : JMap) :
    Option JMap → Option (Option String × JMap)
  | none => some (value0, originals)
  | some pool =>
    match find_matching_object next item index pool with
    | none => none
    | some (some bestMatch) =>
      if (40 : Score) < bestMatch.score ∧ ¬(mapContains bestMatch.key originals) then
        some (some bestMatch.key, mapInsert bestMatch.key item originals)
      else some (value0, originals)
    | some none => some (value0, originals)

/-- Loop body of `JsonDiff::scalarize` (diff.rs lines 139-177), one array
element at a time (paired with its `enumerate` index). -/
def scalarizeGo (next : DiffFun) (fuzzyOriginals : Option JMap) :
    List (Nat × JValue) → ScalState → Option ScalState
  | [], st => some st
  | (index, item) :: rest, (toks, scalarValues0, originals0) =>
    let step0 : Option String × JMap :=
      match item with
      | .obj _ => (none, scalarValues0)
      | _ =>
        let key := serialize item
        (some key, mapInsert key item scalarValues0)
    let value0 := step0.1
    let scalarValues := step0.2
    match scalarizeStepFuzzy next item index value0 originals0 fuzzyOriginals with
    | none => none
    | some (value1, originals) =>
      match value1 with
      | some finalValue =>
        scalarizeGo next fuzzyOriginals rest (toks ++ [finalValue], scalarValues, originals)
      | none =>
        match mapGet "__next" originals with
        | none => none
        | some original =>
          match jAsU64 original with
          | none => none
          | some n =>
            let proxy := "__$!SCALAR" ++ serialize original
            let originals := mapInsert "__next" (.num ((n : Int) + 1)) originals
            let originals := mapInsert proxy item originals
            scalarizeGo next fuzzyOriginals rest (toks ++ [proxy], scalarValues, originals)

/-- Model of `JsonDiff::scalarize`: returns the token sequence together with
the final `scalar_values` and `originals` maps. -/
def scalarize (next : DiffFun) (array : List JValue) (scalarValues originals : JMap)
    (fuzzyOriginals : Option JMap) : Option ScalState :=
  scalarizeGo next fuzzyOriginals array.enum ([], scalarValues, originals)

/-- Model of `JsonDiff::is_scalarized` (diff.rs lines 179-181). -/
def is_scalarized (key : String) (originals : JMap) : Bool :=
  mapContains key originals

/-- Model of `JsonDiff::get_scalar` (diff.rs lines 183-185); the `unwrap`
panic is `none`. -/
def get_scalar (key : String) (scalarValues : JMap) : Option JValue :=
  mapGet key scalarValues

/-- Model of `JsonDiff::descalarize` (diff.rs lines 187-197). -/
def descalarize (key : String) (scalarValues originals : JMap) : Option JValue :=
  match mapGet key originals with
  | some val => some val
  | none => get_scalar key scalarValues

/-- Iterator `seq.iter().take(stop).skip(start)` as a list. -/
def sliceOf (l : List String) (start stop : Nat) : List String :=
  (l.take stop).drop start

/-- The `"equal"` opcode branch of `array_diff` (diff.rs lines 229-254): one
token at a time.  The `assert!` on diverging scalarization classification is
the `none` outcome of the first test. -/
def equalGo (next : DiffFun) (keysOnly : Bool) (sv1 or1 sv2 or2 : JMap) :
    List String → List JValue → Score → Bool → Option (List JValue × Score × Bool)
  | [], result, score, allEqual => some (result, score, allEqual)
  | key :: rest, result, score, allEqual =>
    let isScalarized1 := is_scalarized key or1
    if isScalarized1 ∧ ¬(is_scalarized key or2 = true) then none
    else if isScalarized1 then
      match descalarize key sv1 or1, descalarize key sv2 or2 with
      | some item1, some item2 =>
        match next item1 item2 keysOnly with
        | none => none
        | some sd =>
          match sd.diff with
          | some change =>
            equalGo next keysOnly sv1 or1 sv2 or2 rest
              (result ++ [.arr [.str "~", change]]) (score + 10) false
          | none =>
            equalGo next keysOnly sv1 or1 sv2 or2 rest
              (result ++ [.arr [.str " "]]) (score + 10) allEqual
      | _, _ => none
    else
      match get_scalar key sv1 with
      | none => none
      | some v =>
        equalGo next keysOnly sv1 or1 sv2 or2 rest
          (result ++ [.arr [.str " ", v]]) (score + 10) allEqual

/-- The `"delete"` opcode branch of `array_diff` (diff.rs lines 255-263). -/
def deleteGo (sv1 or1 : JMap) :
    List String → List JValue → Score → Option (List JValue × Score)
  | [], result, score => some (result, score)
  | key :: rest, result, score =>
    match descalarize key sv1 or1 with
    | none => none
    | some v => deleteGo sv1 or1 rest (result ++ [.arr [.str "-", v]]) (score - 5)

/-- The `"insert"` opcode branch of `array_diff` (diff.rs lines 264-276). -/
def insertGo (sv2 or2 : JMap) :
    List String → List JValue → Score → Option (List JValue × Score)
  | [], result, score => some (result, score)
  | key :: rest, result, score =>
    match descalarize key sv2 or2 with
    | none => none
    | some v => insertGo sv2 or2 rest (result ++ [.arr [.str "+", v]]) (score - 5)

/-- The `keys_only` side of the `"replace"` opcode branch (diff.rs lines
278-305): positionally zipped token pairs; an unchanged pair pushes the bare
string `' '` (`json!(' ')`). -/
def replaceKeysGo (next : DiffFun) (keysOnly : Bool) (sv1 or1 sv2 or2 : JMap) :
    List (String × String) → List JValue → Bool → Option (List JValue × Bool)
  | [], result, allEqual => some (result, allEqual)
  | (key1, key2) :: rest, result, allEqual =>
    match descalarize key1 sv1 or1, descalarize key2 sv2 or2 with
    | some d1, some d2 =>
      match next d1 d2 keysOnly with
      | none => none
      | some sd =>
        match sd.diff with
        | some change =>
          replaceKeysGo next keysOnly sv1 or1 sv2 or2 rest
            (result ++ [.arr [.str "~", change]]) false
        | none =>
          replaceKeysGo next keysOnly sv1 or1 sv2 or2 rest
            (result ++ [.str " "]) allEqual
    | _, _ => none

/-- The opcode loop of `array_diff` (diff.rs lines 223-329). -/
def opcodesGo (next : DiffFun) (keysOnly : Bool) (seq1 seq2 : List String)
    (sv1 or1 sv2 or2 : JMap) :
    List DOpcode → List JValue → Score → Bool → Option (List JValue × Score × Bool)
  | [], result, score, allEqual => some (result, score, allEqual)
  | opcode :: rest, result, score, allEqual =>
    let allEqual :=
      if ¬(opcode.tag = .equal ∨ (keysOnly ∧ opcode.tag = .replace)) then false
      else allEqual
    match opcode.tag with
    | .equal =>
      match equalGo next keysOnly sv1 or1 sv2 or2
          (sliceOf seq1 opcode.firstStart opcode.firstEnd) result score allEqual with
      | none => none
      | some (result, score, allEqual) =>
        opcodesGo next keysOnly seq1 seq2 sv1 or1 sv2 or2 rest result score allEqual
    | .delete =>
      match deleteGo sv1 or1
          (sliceOf seq1 opcode.firstStart opcode.firstEnd) result score with
      | none => none
      | some (result, score) =>
        opcodesGo next keysOnly seq1 seq2 sv1 or1 sv2 or2 rest result score allEqual
    | .insert =>
      match insertGo sv2 or2
          (sliceOf seq2 opcode.secondStart opcode.secondEnd) result score with
      | none => none
      | some (result, score) =>
        opcodesGo next keysOnly seq1 seq2 sv1 or1 sv2 or2 rest result score allEqual
    | .replace =>
      if keysOnly then
        match replaceKeysGo next keysOnly sv1 or1 sv2 or2
            ((sliceOf seq1 opcode.firstStart opcode.firstEnd).zip
              (sliceOf seq2 opcode.secondStart
                (opcode.firstEnd - opcode.firstStart + opcode.secondStart)))
            result allEqual with
        | none => none
        | some (result, allEqual) =>
          opcodesGo next keysOnly seq1 seq2 sv1 or1 sv2 or2 rest result score allEqual
      else
        match deleteGo sv1 or1
            (sliceOf seq1 opcode.firstStart opcode.firstEnd) result score with
        | none => none
        | some (result, score) =>
          match insertGo sv2 or2
              (sliceOf seq2 opcode.secondStart opcode.secondEnd) result score with
          | none => none
          | some (result, score) =>
            opcodesGo next keysOnly seq1 seq2 sv1 or1 sv2 or2 rest result score allEqual

/-- Model of `JsonDiff::array_diff` (diff.rs lines 199-342). -/
def array_diff (next : DiffFun) (array1 array2 : List JValue) (keysOnly : Bool) :
    Option ScoredDiff :=
  match scalarize next array1 [] [("__next", .num 1)] none with
  | none => none
  | some (seq1, scalarValues1, originals1) =>
    match mapGet "__next" originals1 with
    | none => none
    | some originals1Value =>
      match scalarize next array2 [] [("__next", originals1Value)] (some originals1) with
      | none => none
      | some (seq2, scalarValues2, originals2) =>
        let opcodes := getOpcodes seq1 seq2
        match opcodesGo next keysOnly seq1 seq2 scalarValues1 originals1
            scalarValues2 originals2 opcodes [] 0 true with
        | none => none
        | some (result, _score, allEqual) =>
          if allEqual ∨ opcodes.isEmpty then
            some (ScoredDiff.mk 100 none)
          else
            some (ScoredDiff.mk (Score.fmax _score 0) (some (.arr result)))

/-- The deleted-keys loop of `object_diff` (diff.rs lines 56-62). -/
def objDeletedGo (obj2 : JMap) : JMap → JMap → Score → JMap × Score
  | [], result, score => (result, score)
  | (key, value1) :: rest, result, score =>
    if mapContains key obj2 then objDeletedGo obj2 rest result score
    else objDeletedGo obj2 rest (mapInsert (key ++ "__deleted") value1 result) (score - 30)

/-- The added-keys loop of `object_diff` (diff.rs lines 64-70). -/
def objAddedGo (obj1 : JMap) : JMap → JMap → Score → JMap × Score
  | [], result, score => (result, score)
  | (key, value2) :: rest, result, score =>
    if mapContains key obj1 then objAddedGo obj1 rest result score
    else objAddedGo obj1 rest (mapInsert (key ++ "__added") value2 result) (score - 30)

/-- The shared-keys loop of `object_diff` (diff.rs lines 72-84), with the
`clamp(-10, 20)` on a fifth of the recursive score. -/
def objSharedGo (next : DiffFun) (keysOnly : Bool) (obj2 : JMap) :
    JMap → JMap → Score → Option (JMap × Score)
  | [], result, score => some (result, score)
  | (key, value1) :: rest, result, score =>
    match mapGet key obj2 with
    | none => objSharedGo next keysOnly obj2 rest result score
    | some value2 =>
      match next value1 value2 keysOnly with
      | none => none
      | some sd =>
        objSharedGo next keysOnly obj2 rest
          (match sd.diff with
           | some change => mapInsert key change result
           | none => result)
          (score + 20 + (sd.score / 5).clamp (-10) 20)

/-- Model of `JsonDiff::object_diff` (diff.rs lines 52-99). -/
def object_diff (next : DiffFun) (obj1 obj2 : JMap) (keysOnly : Bool) :
    Option ScoredDiff :=
  let state1 := objDeletedGo obj2 obj1 [] 0
  let state2 := objAddedGo obj1 obj2 state1.1 state1.2
  match objSharedGo next keysOnly obj2 obj1 state2.1 state2.2 with
  | none => none
  | some (result, score) =>
    if result.isEmpty then
      some (ScoredDiff.mk (100 * Score.fmax (obj1.length : Score) (Score.mk 1 2)) none)
    else
      some (ScoredDiff.mk (Score.fmax score 0) (some (.obj result)))

/-- The BTreeMap produced by `json!({ "__old": json1, "__new": json2 })`
(sorted key order puts `__new` first). -/
def oldNewObj (v1 v2 : JValue) : JValue :=
  .obj [("__new", v2), ("__old", v1)]

/-- Model of `JsonDiff::diff_with_score` (diff.rs lines 344-363),
parameterized by the function used for nested comparisons. -/
def diff_with_score (next : DiffFun) (json1 json2 : JValue) (keysOnly : Bool) :
    Option ScoredDiff :=
  match json1, json2 with
  | .obj obj1, .obj obj2 => object_diff next obj1 obj2 keysOnly
  | .arr array1, .arr array2 => array_diff next array1 array2 keysOnly
  | _, _ =>
    if keysOnly = false ∧ json1 ≠ json2 then
      some (ScoredDiff.mk 0 (some (oldNewObj json1 json2)))
    else some (ScoredDiff.mk 100 none)

/-- Fuel-indexed model of the recursive `JsonDiff::diff`.  The Rust
recursion descends strictly into subterms, so any fuel larger than the sum
of the two tree depths reproduces it; running out of fuel yields `none`. -/
def diffF : Nat → DiffFun
  | 0 => fun _ _ _ => none
  | fuel + 1 => fun v1 v2 keysOnly => diff_with_score (diffF fuel) v1 v2 keysOnly

/-- Model of the public `JsonDiff::diff` entry point, with sufficient fuel
for its input trees. -/
def jsonDiff (json1 json2 : JValue) (keysOnly : Bool) : Option ScoredDiff :=
  diffF (jdepth json1 + jdepth json2 + 1) json1 json2 keysOnly

/-- Whether `suffix` ends `s` (the regex `^(.*)<suffix>$` matches). -/
def strEndsWith (s suffix : String) : Bool :=
  decide (suffix.data.length ≤ s.data.length) &&
    decide (s.data.drop (s.data.length - suffix.data.length) = suffix.data)

/-- Remove the last `n` characters of `s` (the regex capture group). -/
def strDropRight (s : String) (n : Nat) : String :=
  String.mk (s.data.take (s.data.length - n))

mutual
/-- Node weight of a JSON tree: an upper bound on the renderer's recursion
steps, used as fuel. -/
def jweight : JValue → Nat
  | .null => 1
  | .bool _ => 1
  | .num _ => 1
  | .str _ => 1
  | .arr items => 1 + jweightList items
  | .obj fields => 1 + jweightFields fields

/-- Total weight of array elements. -/
def jweightList : List JValue → Nat
  | [] => 1
  | v :: rest => 1 + jweight v + jweightList rest

/-- Total weight of object field values. -/
def jweightFields : List (String × JValue) → Nat
  | [] => 1
  | (_, v) :: rest => 1 + jweight v + jweightFields rest
end

/-! ## The diff renderer (src/src/colorize.rs) -/

/-- Test `arr[0].is_string() && arr[0].as_str().unwrap() == " "` from the
`looks_like_diff` detection. -/
def headIsSpaceStr (sub : List JValue) : Bool :=
  match sub.get? 0 with
  | some (.str s) => s = " "
  | _ => false

/-- Test whether the head of a diff entry is a one-character tag string in
`{" ", "-", "+", "~"}`. -/
def headIsTagStr (sub : List JValue) : Bool :=
  match sub.get? 0 with
  | some (.str s) => decide (s.length = 1) && (s == " " || s == "-" || s == "+" || s == "~")
  | _ => false

/-- The per-element test of the `looks_like_diff` loop of `subcolorize`
(colorize.rs lines 55-71): does one array element have a diff-entry shape? -/
def likeDiffShape : JValue → Bool
  | .arr sub =>
    if ¬(sub.length = 2 ∨ (sub.length = 1 ∧ headIsSpaceStr sub = true)) then false
    else headIsTagStr sub
  | _ => false

/-- The `looks_like_diff` computation exactly as written in the source: the
loop body assigns (not conjoins), so only the last element survives; the
initial value `true` is kept for an empty array. -/
def looksLikeDiff (items : List JValue) : Bool :=
  items.foldl (fun _ item => likeDiffShape item) true

mutual
/-- Model of `subcolorize` (colorize.rs lines 4-98), producing the pushed
`color ++ line` strings in order; `none` models a panic (`unwrap` on a
non-string or absent entry, indexing an empty entry, or the `op` assert) or
exhausted fuel (every call strictly decrements the fuel, so any fuel above
the tree weight runs the Rust recursion exactly). -/
def subcolorizeF : Nat → Option String → JValue → String → String → Option (List String)
  | 0, _, _, _, _ => none
  | fuel + 1, key, dv, color, indent =>
    let pfx :=
      match key with
      | some k => k ++ ": "
      | none => ""
    let subindent := indent ++ "  "
    match dv with
    | .obj o =>
      if o.length = 2 ∧ mapContains "__old" o ∧ mapContains "__new" o then do
        let old ← mapGet "__old" o
        let nw ← mapGet "__new" o
        let l1 ← subcolorizeF fuel key old "-" indent
        let l2 ← subcolorizeF fuel key nw "+" indent
        some (l1 ++ l2)
      else do
        let mid ← objItemsGoF fuel color subindent o
        some ([color ++ indent ++ pfx ++ "\x7b"] ++ mid ++ [color ++ indent ++ "\x7d"])
    | .arr items => do
      let mid ←
        if looksLikeDiff items then diffItemsGoF fuel subindent items
        else plainItemsGoF fuel color subindent items
      some ([color ++ indent ++ pfx ++ "["] ++ mid ++ [color ++ indent ++ "]"])
    | _ => some [color ++ indent ++ pfx ++ serialize dv]

/-- The object-field loop of `subcolorize` (colorize.rs lines 26-48), with
the regex suffix matches `^(.*)__deleted$` / `^(.*)__added$` modelled as
suffix checks (tried in the same order as the source). -/
def objItemsGoF : Nat → String → String → JMap → Option (List String)
  | 0, _, _, _ => none
  | _ + 1, _, _, [] => some []
  | fuel + 1, color, subindent, (subkey, subvalue) :: rest => do
    let lines ←
      if strEndsWith subkey "__deleted" then
        subcolorizeF fuel (some (strDropRight subkey 9)) subvalue "-" subindent
      else if strEndsWith subkey "__added" then
        subcolorizeF fuel (some (strDropRight subkey 7)) subvalue "+" subindent
      else
        subcolorizeF fuel (some subkey) subvalue color subindent
    let restLines ← objItemsGoF fuel color subindent rest
    some (lines ++ restLines)

/-- The diff-encoded rendering loop of `subcolorize` (colorize.rs lines
73-87): non-array entries are silently skipped; `subitem[0]` on an empty
entry, `as_str().unwrap()` on a non-string tag, the `op` assert, and
`subvalue.unwrap()` are the panic (`none`) outcomes. -/
def diffItemsGoF : Nat → String → List JValue → Option (List String)
  | 0, _, _ => none
  | _ + 1, _, [] => some []
  | fuel + 1, subindent, item :: rest => do
    let lines ←
      match item with
      | .arr subitem => do
        let first ← subitem.get? 0
        let op ←
          match first with
          | .str s => some s
          | _ => none
        let subvalue := subitem.get? 1
        if op = " " ∧ subvalue = none then
          some [" " ++ subindent ++ "..."]
        else if ¬(op = " " ∨ op = "-" ∨ op = "+" ∨ op = "~") then
          none
        else do
          let sv ← subvalue
          let color := if op = "~" then " " else op
          subcolorizeF fuel none sv color subindent
      | _ => some []
    let restLines ← diffItemsGoF fuel subindent rest
    some (lines ++ restLines)

/-- The plain-array rendering loop of `subcolorize` (colorize.rs lines
88-92). -/
def plainItemsGoF : Nat → String → String → List JValue → Option (List String)
  | 0, _, _, _ => none
  | _ + 1, _, _, [] => some []
  | fuel + 1, color, subindent, subvalue :: rest => do
    let lines ← subcolorizeF fuel none subvalue color subindent
    let restLines ← plainItemsGoF fuel color subindent rest
    some (lines ++ restLines)
end

/-- Model of `colorize_to_array` (colorize.rs lines 103-113), with fuel
sufficient for the input tree. -/
def colorize_to_array (diffVal : JValue) : Option (List String) :=
  subcolorizeF (jweight diffVal + 1) none diffVal " " ""

/-! ## Invariant predicates used by the alignment verification (C8) -/

/-- Whether the first character of a string is `'_'`; every key the
scalarization passes store in `originals` starts with `"__"`, and no
serialized scalar token does. -/
def headUnderscore (s : String) : Bool :=
  match s.data with
  | [] => false
  | c :: _ => decide (c = '_')

/-- A run of `k` pairwise-equal tokens ending at positions `(i, j)` of the
two sequences. -/
def RunEnd (a b : List String) (i j k : Nat) : Prop :=
  ∀ t, t < k → a.getD (i - t) "" = b.getD (j - t) ""

/-- The tokens covered by a match are pairwise equal. -/
def MatchSpan (a b : List String) (m : DMatch) : Prop :=
  ∀ t, t < m.size → a.getD (m.firstStart + t) "" = b.getD (m.secondStart + t) ""

/-- A block is genuine: it stays inside both sequences and covers pairwise
equal tokens. -/
def GoodBlock (a b : List String) (m : DMatch) : Prop :=
  m.firstStart + m.size ≤ a.length ∧ m.secondStart + m.size ≤ b.length ∧
    MatchSpan a b m

/-! ## Claim theorems -/

/-- C1.  Reflexivity of the diff engine fails on the code: for the value
`V = [5, {}, {}]`, `JsonDiff::diff(V, V, false)` does not return
`diff == None` with score 100.  The second scalarization pass fuzzy-matches
the two identical empty objects to the side-1 tokens in the wrong order
(the pool is iterated in sorted key order while the tie-break compares the
pool position with the array index using wrapping subtraction), so the
aligner sees `["5", S1, S2]` against `["5", S2, S1]` and the engine reports
a phantom insert/delete pair with score 10.  This theorem evaluates the
model of the engine at that failing input. -/
theorem c1_reflexivity_fails_on_code :
    jsonDiff (.arr [.num 5, .obj [], .obj []]) (.arr [.num 5, .obj [], .obj []]) false =
      some (ScoredDiff.mk 10 (some (.arr
        [.arr [.str " ", .num 5], .arr [.str "+", .obj []],
         .arr [.str " "], .arr [.str "-", .obj []]]))) := by
  decide

/-- C2.  The renderer does not classify an array as diff-encoded by checking
every element: the `looks_like_diff` loop overwrites its flag on each
iteration, so only the last element decides.  At `[42, [" "]]` the last
element has the one-element `[' ']` marker shape while the first does not;
the claim requires plain-array rendering, but the code renders the array as
diff-encoded, skipping the non-array entry `42` and emitting only the
ellipsis line.  This theorem evaluates the model of the renderer there. -/
theorem c2_last_element_decides_diff_detection :
    colorize_to_array (.arr [.num 42, .arr [.str " "]]) =
      some [" [", "   ...", " ]"] := by
  decide

/-- C3.  The renderer is not total: because diff-encoding detection keeps
only the last element's shape (see C2), a non-conforming earlier element
reaches the tagged-entry rendering loop, where `subitem[0].as_str().unwrap()`
panics on the non-string head of `[1, 2]`.  The claim says the renderer
falls back to plain-array rendering and never fails; the model of
`colorize_to_array` instead returns `none` (a panic) at `[[1, 2], [" "]]`. -/
theorem c3_renderer_panics_on_mixed_array :
    colorize_to_array (.arr [.arr [.num 1, .num 2], .arr [.str " "]]) = none := by
  decide

/-- C4 counterexample.  The claim says `check_type` rejects every pair of
values of different top-level categories; but the pair of a number and an
object (different categories, as the `is_number` / `is_object` flags show)
passes the check. -/
theorem c4_counterexample_cross_category_pair_accepted :
    check_type (.num 5) (.obj []) = true ∧
      (JValue.num 5).isNumber = true ∧ (JValue.obj []).isNumber = false ∧
      (JValue.num 5).isObject = false ∧ (JValue.obj []).isObject = true := by
  decide

/-- C4 amended.  `check_type` is the OR of the six category-flag equalities;
any two values agree on at least one of the six flags (each value sets
exactly one flag), so `check_type` accepts every pair of values and the
type-compatibility filter never rejects any candidate.  Cross-category
reuse is prevented only by the `score > 40` threshold in `scalarize`. -/
theorem c4_check_type_always_true (v1 v2 : JValue) : check_type v1 v2 = true := by
  cases v1 <;> cases v2 <;> rfl

/-- C5 counterexample.  The claim says array elements covered only by the
second-sequence side of a `replace` opcode of unequal range lengths are
still reported as added under `keysOnly`.  For `diff([1], [2, 3], true)`
the aligner yields one `replace` opcode with ranges of lengths 1 and 2; the
`keys_only` branch zips only one pair and drops the extra element `3`, so
the whole diff comes back `None` with score 100 — the addition is not
reported. -/
theorem c5_counterexample_replace_extra_element_dropped :
    jsonDiff (.arr [.num 1]) (.arr [.num 2, .num 3]) true =
      some (ScoredDiff.mk 100 none) := by
  decide

/-- C5 amended.  `keysOnly` mode never reports a value change on a scalar
leaf: for any two values that are not both objects and not both arrays,
`diff(a, b, true)` returns score 100 and `diff == None` (whether or not the
leaves are equal).  Added or removed elements are reported through `insert`
and `delete` opcodes, but second-side elements beyond the zipped prefix of
a `replace` opcode are silently dropped (see the counterexample). -/
theorem c5_keys_only_never_reports_scalar_change (v1 v2 : JValue)
    (h1 : (v1.isObject && v2.isObject) = false)
    (h2 : (v1.isArray && v2.isArray) = false) :
    jsonDiff v1 v2 true = some (ScoredDiff.mk 100 none) := by
  cases v1 <;> cases v2 <;>
    simp_all [jsonDiff, diffF, diff_with_score, JValue.isObject, JValue.isArray]

/-- C5 witness: the amended theorem applied to the unequal scalar pair
`(1, 2)`. -/
theorem c5_keys_only_never_reports_scalar_change_witness :
    jsonDiff (.num 1) (.num 2) true = some (ScoredDiff.mk 100 none) :=
  c5_keys_only_never_reports_scalar_change (.num 1) (.num 2) (by decide) (by decide)

/-- Strictly ascending keys in the BTreeMap byte order. -/
def SortedKeys (m : JMap) : Prop :=
  List.Chain' (fun p q => strLt p.1 q.1 = true) m

theorem charToNat_inj {a b : Char} (h : a.toNat = b.toNat) : a = b := by
  have := congrArg Char.ofNat h
  rwa [Char.ofNat_toNat, Char.ofNat_toNat] at this

theorem charListLt_total : ∀ (a b : List Char), a ≠ b →
    charListLt a b = false → charListLt b a = true := by
  intro a
  induction a with
  | nil =>
    intro b hne hf
    cases b with
    | nil => exact absurd rfl hne
    | cons c cs => simp [charListLt] at hf
  | cons c cs ih =>
    intro b hne hf
    cases b with
    | nil => simp [charListLt]
    | cons d ds =>
      simp only [charListLt] at hf ⊢
      by_cases h1 : c.toNat < d.toNat
      · simp [h1] at hf
      · by_cases h2 : d.toNat < c.toNat
        · simp [h1, h2] at hf ⊢
        · have hcd : c = d := charToNat_inj (by omega)
          subst hcd
          simp only [h1, if_neg, if_false] at hf ⊢
          have hne' : cs ≠ ds := by
            intro hx
            exact hne (by rw [hx])
          exact ih ds hne' hf

theorem strLt_total {a b : String} (hne : a ≠ b) (hf : strLt a b = false) :
    strLt b a = true := by
  unfold strLt at hf ⊢
  apply charListLt_total _ _ _ hf
  intro hd
  apply hne
  cases a
  cases b
  simp only at hd
  rw [hd]

theorem mapInsert_head (k : String) (v : JValue) (m : JMap) :
    (mapInsert k v m).head? = some (k, v) ∨ (mapInsert k v m).head? = m.head? := by
  cases m with
  | nil => left; rfl
  | cons p rest =>
    obtain ⟨k', v'⟩ := p
    unfold mapInsert
    by_cases h1 : k = k'
    · rw [if_pos h1]; left; rfl
    · rw [if_neg h1]
      by_cases h2 : strLt k k'
      · rw [if_pos h2]; left; rfl
      · rw [if_neg h2]; right; rfl

theorem mapInsert_sorted (k : String) (v : JValue) :
    ∀ (m : JMap), SortedKeys m → SortedKeys (mapInsert k v m) := by
  intro m
  induction m with
  | nil => intro _; simp [mapInsert, SortedKeys]
  | cons p rest ih =>
    obtain ⟨k', v'⟩ := p
    intro hs
    unfold SortedKeys at hs ⊢
    rw [List.chain'_cons'] at hs
    obtain ⟨hhead, htail⟩ := hs
    unfold mapInsert
    by_cases h1 : k = k'
    · rw [if_pos h1]
      rw [List.chain'_cons']
      subst h1
      exact ⟨hhead, htail⟩
    · rw [if_neg h1]
      by_cases h2 : strLt k k'
      · rw [if_pos h2]
        rw [List.chain'_cons']
        refine ⟨?_, ?_⟩
        · intro b hb
          simp only [List.head?_cons, Option.mem_def, Option.some.injEq] at hb
          subst hb
          exact h2
        · rw [List.chain'_cons']
          exact ⟨hhead, htail⟩
      · rw [if_neg h2]
        rw [List.chain'_cons']
        refine ⟨?_, ih htail⟩
        intro b hb
        rcases mapInsert_head k v rest with hh | hh
        · rw [hh] at hb
          simp only [Option.mem_def, Option.some.injEq] at hb
          subst hb
          exact strLt_total h1 (by simpa using h2)
        · rw [hh] at hb
          exact hhead b hb

theorem objDeletedGo_sorted (obj2 : JMap) :
    ∀ (l result : JMap) (score : Score), SortedKeys result →
      SortedKeys (objDeletedGo obj2 l result score).1 := by
  intro l
  induction l with
  | nil => intro result score hs; exact hs
  | cons p rest ih =>
    obtain ⟨key, value1⟩ := p
    intro result score hs
    unfold objDeletedGo
    by_cases h : mapContains key obj2
    · rw [if_pos h]; exact ih result score hs
    · rw [if_neg h]; exact ih _ _ (mapInsert_sorted _ _ _ hs)

theorem objAddedGo_sorted (obj1 : JMap) :
    ∀ (l result : JMap) (score : Score), SortedKeys result →
      SortedKeys (objAddedGo obj1 l result score).1 := by
  intro l
  induction l with
  | nil => intro result score hs; exact hs
  | cons p rest ih =>
    obtain ⟨key, value2⟩ := p
    intro result score hs
    unfold objAddedGo
    by_cases h : mapContains key obj1
    · rw [if_pos h]; exact ih result score hs
    · rw [if_neg h]; exact ih _ _ (mapInsert_sorted _ _ _ hs)

theorem objSharedGo_sorted (next : DiffFun) (keysOnly : Bool) (obj2 : JMap) :
    ∀ (l result : JMap) (score : Score) (result' : JMap) (score' : Score),
      objSharedGo next keysOnly obj2 l result score = some (result', score') →
      SortedKeys result → SortedKeys result' := by
  intro l
  induction l with
  | nil =>
    intro result score result' score' h hs
    unfold objSharedGo at h
    injection h with h
    injection h with h1 h2
    rw [← h1]
    exact hs
  | cons p rest ih =>
    obtain ⟨key, value1⟩ := p
    intro result score result' score' h hs
    unfold objSharedGo at h
    split at h
    · exact ih result score result' score' h hs
    · rename_i value2 hget
      split at h
      · exact absurd h (by simp)
      · rename_i sd hnext
        refine ih _ _ _ _ h ?_
        split
        · exact mapInsert_sorted _ _ _ hs
        · exact hs

/-- C6 counterexample.  The claim says the output keys appear grouped: first
the `__deleted` entries, then the `__added` entries, then the shared keys.
For `diff({"z": 1}, {"a": 2}, false)` the code produces the BTreeMap whose
iteration (and rendering) order is `a__added` before `z__deleted`: an added
key precedes the deleted one. -/
theorem c6_counterexample_added_key_precedes_deleted :
    jsonDiff (.obj [("z", .num 1)]) (.obj [("a", .num 2)]) false =
      some (ScoredDiff.mk 0 (some (.obj
        [("a__added", .num 2), ("z__deleted", .num 1)]))) := by
  decide

/-- C6 amended.  `object_diff` accumulates its result in a
`BTreeMap<String, Value>`, so the keys of a non-`None` object diff appear in
strictly ascending lexicographic (byte) order of the emitted key names
(`<key>__deleted`, `<key>__added`, and shared keys interleaved by name),
not in the deleted/added/shared emission order. -/
theorem c6_object_diff_keys_sorted (o1 o2 : JMap) (ko : Bool) (r : ScoredDiff)
    (l : JMap) (h : jsonDiff (.obj o1) (.obj o2) ko = some r)
    (hd : r.diff = some (.obj l)) : SortedKeys l := by
  have h' : object_diff (diffF (jdepth (JValue.obj o1) + jdepth (JValue.obj o2)))
      o1 o2 ko = some r := h
  clear h
  rename' h' => h
  unfold object_diff at h
  dsimp only at h
  cases hsh : objSharedGo (diffF (jdepth (JValue.obj o1) + jdepth (JValue.obj o2)))
      ko o2 o1 (objAddedGo o1 o2 (objDeletedGo o2 o1 [] 0).1 (objDeletedGo o2 o1 [] 0).2).1
      (objAddedGo o1 o2 (objDeletedGo o2 o1 [] 0).1 (objDeletedGo o2 o1 [] 0).2).2 with
  | none =>
    rw [hsh] at h
    exact absurd h (by simp)
  | some rs =>
    obtain ⟨result, score⟩ := rs
    rw [hsh] at h
    dsimp only at h
    by_cases he : result.isEmpty
    · rw [if_pos he] at h
      injection h with h
      rw [← h] at hd
      simp at hd
    · rw [if_neg he] at h
      injection h with h
      rw [← h] at hd
      simp only [Option.some.injEq, JValue.obj.injEq] at hd
      rw [← hd]
      have h0 : SortedKeys ([] : JMap) := List.chain'_nil
      exact objSharedGo_sorted _ _ _ _ _ _ _ _ hsh
        (objAddedGo_sorted _ _ _ _ (objDeletedGo_sorted _ _ _ _ h0))

/-- C6 witness: the amended sortedness theorem applied at the
counterexample's input. -/
theorem c6_object_diff_keys_sorted_witness :
    SortedKeys [("a__added", JValue.num 2), ("z__deleted", JValue.num 1)] :=
  c6_object_diff_keys_sorted [("z", .num 1)] [("a", .num 2)] false
    (ScoredDiff.mk 0 (some (.obj [("a__added", .num 2), ("z__deleted", .num 1)])))
    [("a__added", .num 2), ("z__deleted", .num 1)] (by decide) rfl

/-- Shape predicate for one entry of an array diff: the five tagged entry
shapes of the data model, or the bare string `' '` that the `keys_only`
side of the `replace` branch pushes for an unchanged pair. -/
def entryOk : JValue → Bool
  | .arr [.str t] => t == " "
  | .arr [.str t, _] => (t == " ") || (t == "-") || (t == "+") || (t == "~")
  | .str t => t == " "
  | _ => false

/-- All entries of a list satisfy `entryOk`. -/
def EntriesOk (l : List JValue) : Prop :=
  ∀ e ∈ l, entryOk e = true

theorem entriesOk_append {l1 l2 : List JValue} (h1 : EntriesOk l1) (h2 : EntriesOk l2) :
    EntriesOk (l1 ++ l2) := by
  intro e he
  rcases List.mem_append.mp he with h | h
  · exact h1 e h
  · exact h2 e h

theorem equalGo_entries (next : DiffFun) (keysOnly : Bool) (sv1 or1 sv2 or2 : JMap) :
    ∀ (keys : List String) (result : List JValue) (score : Score) (allEqual : Bool)
      (result' : List JValue) (score' : Score) (allEqual' : Bool),
      equalGo next keysOnly sv1 or1 sv2 or2 keys result score allEqual =
        some (result', score', allEqual') →
      EntriesOk result → EntriesOk result' := by
  intro keys
  induction keys with
  | nil =>
    intro result score allEqual result' score' allEqual' h hr
    unfold equalGo at h
    injection h with h
    obtain ⟨h1, -⟩ := Prod.mk.injEq .. ▸ Prod.mk.inj h
    rw [← h1]
    exact hr
  | cons key rest ih =>
    intro result score allEqual result' score' allEqual' h hr
    unfold equalGo at h
    dsimp only at h
    repeat' split at h
    all_goals
      first
        | exact absurd h (by simp)
        | exact ih _ _ _ _ _ _ h (entriesOk_append hr
            (by intro e he; simp at he; subst he; first | rfl | decide))

theorem deleteGo_entries (sv1 or1 : JMap) :
    ∀ (keys : List String) (result : List JValue) (score : Score)
      (result' : List JValue) (score' : Score),
      deleteGo sv1 or1 keys result score = some (result', score') →
      EntriesOk result → EntriesOk result' := by
  intro keys
  induction keys with
  | nil =>
    intro result score result' score' h hr
    unfold deleteGo at h
    injection h with h
    obtain ⟨h1, -⟩ := Prod.mk.inj h
    rw [← h1]
    exact hr
  | cons key rest ih =>
    intro result score result' score' h hr
    unfold deleteGo at h
    repeat' split at h
    all_goals
      first
        | exact absurd h (by simp)
        | exact ih _ _ _ _ h (entriesOk_append hr
            (by intro e he; simp at he; subst he; rfl))

theorem insertGo_entries (sv2 or2 : JMap) :
    ∀ (keys : List String) (result : List JValue) (score : Score)
      (result' : List JValue) (score' : Score),
      insertGo sv2 or2 keys result score = some (result', score') →
      EntriesOk result → EntriesOk result' := by
  intro keys
  induction keys with
  | nil =>
    intro result score result' score' h hr
    unfold insertGo at h
    injection h with h
    obtain ⟨h1, -⟩ := Prod.mk.inj h
    rw [← h1]
    exact hr
  | cons key rest ih =>
    intro result score result' score' h hr
    unfold insertGo at h
    repeat' split at h
    all_goals
      first
        | exact absurd h (by simp)
        | exact ih _ _ _ _ h (entriesOk_append hr
            (by intro e he; simp at he; subst he; rfl))

theorem replaceKeysGo_entries (next : DiffFun) (keysOnly : Bool) (sv1 or1 sv2 or2 : JMap) :
    ∀ (pairs : List (String × String)) (result : List JValue) (allEqual : Bool)
      (result' : List JValue) (allEqual' : Bool),
      replaceKeysGo next keysOnly sv1 or1 sv2 or2 pairs result allEqual =
        some (result', allEqual') →
      EntriesOk result → EntriesOk result' := by
  intro pairs
  induction pairs with
  | nil =>
    intro result allEqual result' allEqual' h hr
    unfold replaceKeysGo at h
    injection h with h
    obtain ⟨h1, -⟩ := Prod.mk.inj h
    rw [← h1]
    exact hr
  | cons p rest ih =>
    obtain ⟨key1, key2⟩ := p
    intro result allEqual result' allEqual' h hr
    unfold replaceKeysGo at h
    repeat' split at h
    all_goals
      first
        | exact absurd h (by simp)
        | exact ih _ _ _ _ h (entriesOk_append hr
            (by intro e he; simp at he; subst he; first | rfl | decide))

theorem opcodesGo_entries (next : DiffFun) (keysOnly : Bool) (seq1 seq2 : List String)
    (sv1 or1 sv2 or2 : JMap) :
    ∀ (opcodes : List DOpcode) (result : List JValue) (score : Score) (allEqual : Bool)
      (result' : List JValue) (score' : Score) (allEqual' : Bool),
      opcodesGo next keysOnly seq1 seq2 sv1 or1 sv2 or2 opcodes result score allEqual =
        some (result', score', allEqual') →
      EntriesOk result → EntriesOk result' := by
  intro opcodes
  induction opcodes with
  | nil =>
    intro result score allEqual result' score' allEqual' h hr
    unfold opcodesGo at h
    injection h with h
    obtain ⟨h1, -⟩ := Prod.mk.inj h
    rw [← h1]
    exact hr
  | cons opcode rest ih =>
    intro result score allEqual result' score' allEqual' h hr
    unfold opcodesGo at h
    dsimp only at h
    repeat' split at h
    all_goals
      first
        | exact absurd h (by simp)
        | exact ih _ _ _ _ _ _ h (equalGo_entries next keysOnly sv1 or1 sv2 or2
            _ _ _ _ _ _ _ (by assumption) hr)
        | exact ih _ _ _ _ _ _ h (replaceKeysGo_entries next keysOnly sv1 or1 sv2 or2
            _ _ _ _ _ (by assumption) hr)
        | exact ih _ _ _ _ _ _ h (insertGo_entries sv2 or2 _ _ _ _ _ (by assumption)
            (deleteGo_entries sv1 or1 _ _ _ _ _ (by assumption) hr))
        | exact ih _ _ _ _ _ _ h (deleteGo_entries sv1 or1 _ _ _ _ _ (by assumption) hr)
        | exact ih _ _ _ _ _ _ h (insertGo_entries sv2 or2 _ _ _ _ _ (by assumption) hr)

/-- C7 counterexample.  The claim says every entry of a non-`None` array
diff has one of the five tagged shapes (in particular, unchanged
positionally-paired tokens under `keysOnly` yield the one-element `[' ']`
marker).  Diffing `[1, {"a": 1}]` against `[2, {"b": 2}]` with
`keys_only = true` goes through one `replace` opcode; the unchanged scalar
pair `(1, 2)` pushes `json!(' ')` — the bare string `" "`, not `[' ']` —
as the first entry of the produced diff. -/
theorem c7_counterexample_bare_space_entry :
    jsonDiff (.arr [.num 1, .obj [("a", .num 1)]]) (.arr [.num 2, .obj [("b", .num 2)]]) true =
      some (ScoredDiff.mk 0 (some (.arr [.str " ",
        .arr [.str "~", .obj [("a__deleted", .num 1), ("b__added", .num 2)]]]))) := by
  decide

/-- C7 amended.  Every entry of a non-`None` array diff produced by
`array_diff` either has one of the five tagged shapes `[' ']`, `[' ', V]`,
`['-', V]`, `['+', V]`, `['~', D]`, or is the bare one-character string
`' '` pushed for an unchanged positionally-paired token in the `keys_only`
side of a `replace` opcode. -/
theorem c7_array_diff_entry_shapes (a1 a2 : List JValue) (ko : Bool) (r : ScoredDiff)
    (l : List JValue) (h : jsonDiff (.arr a1) (.arr a2) ko = some r)
    (hd : r.diff = some (.arr l)) : EntriesOk l := by
  have h' : array_diff (diffF (jdepth (JValue.arr a1) + jdepth (JValue.arr a2)))
      a1 a2 ko = some r := h
  clear h
  rename' h' => h
  unfold array_diff at h
  repeat' first
    | split at h
    | dsimp only at h
  · exact absurd h (by simp)
  · exact absurd h (by simp)
  · exact absurd h (by simp)
  · exact absurd h (by simp)
  · injection h with h
    rw [← h] at hd
    simp at hd
  · injection h with h
    rw [← h] at hd
    simp only [Option.some.injEq, JValue.arr.injEq] at hd
    rw [← hd]
    exact opcodesGo_entries _ _ _ _ _ _ _ _ _ _ _ _ _ _ _ (by assumption)
      (by intro e he; simp at he)

/-- C7 witness: the amended shape theorem applied at
`diff([10, 20, 30], [10, 30], false)`. -/
theorem c7_array_diff_entry_shapes_witness :
    EntriesOk [.arr [.str " ", .num 10], .arr [.str "-", .num 20], .arr [.str " ", .num 30]] :=
  c7_array_diff_entry_shapes [.num 10, .num 20, .num 30] [.num 10, .num 30] false
    (ScoredDiff.mk 15 (some (.arr [.arr [.str " ", .num 10], .arr [.str "-", .num 20],
      .arr [.str " ", .num 30]])))
    [.arr [.str " ", .num 10], .arr [.str "-", .num 20], .arr [.str " ", .num 30]]
    (by decide) rfl

/-- C9 counterexample.  The claim says every top-level `{__old, __new}` pair
produced by the engine renders as exactly two lines.  The engine produces
such a pair for `diff([1, 2], 5, false)` (a mixed-category comparison), and
rendering it yields five lines, because the composite `__old` value spans
four lines under the '-' marker. -/
theorem c9_counterexample_composite_old_new_not_two_lines :
    jsonDiff (.arr [.num 1, .num 2]) (.num 5) false =
      some (ScoredDiff.mk 0 (some (oldNewObj (.arr [.num 1, .num 2]) (.num 5)))) ∧
    colorize_to_array (oldNewObj (.arr [.num 1, .num 2]) (.num 5)) =
      some ["-[", "-  1", "-  2", "-]", "+5"] := by
  constructor
  · decide
  · decide

/-- C9 amended.  A two-key `{__old, __new}` mapping renders `__old` under
marker '-' and then `__new` under marker '+' at the same indentation; when
both values are scalar leaves (neither arrays nor objects) the rendering is
exactly two lines, '-' then '+'.  Composite `__old`/`__new` values span
more lines (see the counterexample). -/
theorem c9_old_new_scalar_renders_two_lines (v1 v2 : JValue)
    (h1 : v1.isArray = false) (h2 : v1.isObject = false)
    (h3 : v2.isArray = false) (h4 : v2.isObject = false) :
    colorize_to_array (oldNewObj v1 v2) =
      some ["-" ++ serialize v1, "+" ++ serialize v2] := by
  cases v1 <;> cases v2 <;>
    first
      | rfl
      | (exfalso; simp_all [JValue.isArray, JValue.isObject])

/-- C9 witness: the amended theorem applied at the scalar pair `(42, 10)`,
matching the crate's own `colorize_to_array` test. -/
theorem c9_old_new_scalar_renders_two_lines_witness :
    colorize_to_array (oldNewObj (.num 42) (.num 10)) = some ["-42", "+10"] := by
  rw [c9_old_new_scalar_renders_two_lines (.num 42) (.num 10) rfl rfl rfl rfl]
  rfl

/-- A score is nonnegative when its numerator is. -/
theorem zero_le_of_num_nonneg {s : Score} (h : 0 ≤ s.num) : (0 : Score) ≤ s := by
  show Score.ble 0 s = true
  simp only [Score.ble, decide_eq_true_eq]
  show (0 : Int) * (s.den : Int) ≤ s.num * ((1 : Nat) : Int)
  omega

theorem normalize_num_nonneg {n : Int} (h : 0 ≤ n) (d : Nat) :
    0 ≤ (Score.normalize n d).num := by
  unfold Score.normalize
  by_cases hg : natGcd n.natAbs d = 0
  · rw [if_pos hg]; exact h
  · rw [if_neg hg]
    show 0 ≤ n / ((natGcd n.natAbs d : Nat) : Int)
    exact Int.ediv_nonneg h (by positivity)

theorem zero_le_mul_of_num_nonneg {a b : Score} (ha : 0 ≤ a.num) (hb : 0 ≤ b.num) :
    (0 : Score) ≤ a * b := by
  apply zero_le_of_num_nonneg
  show 0 ≤ (Score.normalize (a.num * b.num) (a.den * b.den)).num
  exact normalize_num_nonneg (mul_nonneg ha hb) _

theorem fmax_num_nonneg {a b : Score} (ha : 0 ≤ a.num) (hb : 0 ≤ b.num) :
    0 ≤ (Score.fmax a b).num := by
  unfold Score.fmax
  by_cases h : a ≤ b
  · rw [if_pos h]; exact hb
  · rw [if_neg h]; exact ha

theorem zero_le_fmax_zero (s : Score) : (0 : Score) ≤ Score.fmax s 0 := by
  unfold Score.fmax
  by_cases h : s ≤ (0 : Score)
  · rw [if_pos h]; decide
  · rw [if_neg h]
    apply zero_le_of_num_nonneg
    by_contra hneg
    apply h
    show Score.ble s 0 = true
    simp only [Score.ble, decide_eq_true_eq]
    show s.num * ((1 : Nat) : Int) ≤ (0 : Int) * (s.den : Int)
    omega

theorem object_diff_score_nonneg (next : DiffFun) (o1 o2 : JMap) (ko : Bool)
    (r : ScoredDiff) (h : object_diff next o1 o2 ko = some r) : (0 : Score) ≤ r.score := by
  unfold object_diff at h
  dsimp only at h
  repeat' first
    | split at h
    | dsimp only at h
  · exact absurd h (by simp)
  · injection h with h
    rw [← h]
    exact zero_le_mul_of_num_nonneg (by decide) (fmax_num_nonneg (Int.natCast_nonneg _) (by decide))
  · injection h with h
    rw [← h]
    exact zero_le_fmax_zero _

set_option maxHeartbeats 2000000 in
theorem array_diff_score_nonneg (next : DiffFun) (a1 a2 : List JValue) (ko : Bool)
    (r : ScoredDiff) (h : array_diff next a1 a2 ko = some r) : (0 : Score) ≤ r.score := by
  unfold array_diff at h
  repeat' first
    | split at h
    | dsimp only at h
  all_goals first
    | exact Option.noConfusion h
    | (injection h with h; rw [← h]; exact zero_le_fmax_zero _)
    | (injection h with h; rw [← h]; show (0 : Score) ≤ (100 : Score); decide)

theorem diff_with_score_score_nonneg (next : DiffFun) (j1 j2 : JValue) (ko : Bool)
    (r : ScoredDiff) (h : diff_with_score next j1 j2 ko = some r) : (0 : Score) ≤ r.score := by
  unfold diff_with_score at h
  split at h
  · exact object_diff_score_nonneg _ _ _ _ _ h
  · exact array_diff_score_nonneg _ _ _ _ _ h
  · split at h
    · injection h with h; rw [← h]; show (0 : Score) ≤ (0 : Score); decide
    · injection h with h; rw [← h]; show (0 : Score) ≤ (100 : Score); decide

theorem diffF_score_nonneg (fuel : Nat) (v1 v2 : JValue) (ko : Bool) (r : ScoredDiff)
    (h : diffF fuel v1 v2 ko = some r) : (0 : Score) ≤ r.score := by
  cases fuel with
  | zero => exact absurd h (by simp [diffF])
  | succ n => exact diff_with_score_score_nonneg _ _ _ _ _ h

/-- C10: for every pair of input values and both values of `keysOnly`, the
score returned by `JsonDiff::diff` is nonnegative: every result path either
returns a fixed `100`, a `100 * max(0.5, n)` with `n` a key count, a literal
`0`, or clamps the accumulated score with `max(0, score)` before returning. -/
theorem json_diff_score_nonneg (v1 v2 : JValue) (ko : Bool) (r : ScoredDiff)
    (h : jsonDiff v1 v2 ko = some r) : (0 : Score) ≤ r.score := by
  unfold jsonDiff at h
  exact diffF_score_nonneg _ _ _ _ _ h

/-- C10 witness: the main theorem applied to `diff(null, null, false)`,
whose result the model computes to score `100` and diff `None`. -/
theorem json_diff_score_nonneg_witness :
    jsonDiff .null .null false = some (ScoredDiff.mk 100 none) ∧
      (0 : Score) ≤ (ScoredDiff.mk 100 none).score :=
  ⟨by rfl, json_diff_score_nonneg .null .null false (ScoredDiff.mk 100 none) (by rfl)⟩

/-! ## Map, token and alignment lemmas for C8 -/

theorem mapGet_insert_self (k : String) (v : JValue) (m : JMap) :
    mapGet k (mapInsert k v m) = some v := by
  induction m with
  | nil => simp [mapInsert, mapGet]
  | cons p rest ih =>
    obtain ⟨k', v'⟩ := p
    unfold mapInsert
    by_cases h1 : k = k'
    · rw [if_pos h1]; simp [mapGet]
    · rw [if_neg h1]
      by_cases h2 : strLt k k' = true
      · rw [if_pos h2]; simp [mapGet]
      · rw [if_neg h2]
        unfold mapGet
        rw [if_neg (fun hh => h1 hh.symm)]
        exact ih

theorem mapGet_insert_ne {k k' : String} (h : k ≠ k') (v : JValue) (m : JMap) :
    mapGet k (mapInsert k' v m) = mapGet k m := by
  induction m with
  | nil =>
    unfold mapInsert mapGet
    rw [if_neg (fun hh => h hh.symm)]
    rfl
  | cons p rest ih =>
    obtain ⟨k'', v''⟩ := p
    unfold mapInsert
    by_cases h1 : k' = k''
    · rw [if_pos h1]
      subst h1
      unfold mapGet
      rw [if_neg (fun hh => h hh.symm), if_neg (fun hh => h hh.symm)]
    · rw [if_neg h1]
      by_cases h2 : strLt k' k'' = true
      · rw [if_pos h2]
        unfold mapGet
        rw [if_neg (fun hh => h hh.symm)]
        rw [mapGet]
      · rw [if_neg h2]
        unfold mapGet
        by_cases h3 : k'' = k
        · rw [if_pos h3, if_pos h3]
        · rw [if_neg h3, if_neg h3]
          exact ih

theorem mapContains_insert_self (k : String) (v : JValue) (m : JMap) :
    mapContains k (mapInsert k v m) = true := by
  simp [mapContains, mapGet_insert_self]

theorem mapContains_insert_mono {k : String} {m : JMap} (k' : String) (v : JValue)
    (h : mapContains k m = true) : mapContains k (mapInsert k' v m) = true := by
  by_cases he : k = k'
  · subst he; exact mapContains_insert_self k v m
  · rw [mapContains, mapGet_insert_ne he]; exact h

theorem mapContains_insert_elim {k k' : String} {v : JValue} {m : JMap}
    (h : mapContains k (mapInsert k' v m) = true) : k = k' ∨ mapContains k m = true := by
  by_cases he : k = k'
  · exact Or.inl he
  · right
    rw [mapContains, mapGet_insert_ne he] at h
    exact h

/-! Head-underscore lemmas -/

theorem string_data_append (a b : String) : (a ++ b).data = a.data ++ b.data := by
  cases a; cases b; rfl

theorem headUnderscore_scalar_prefix (s : String) :
    headUnderscore ("__$!SCALAR" ++ s) = true := by
  cases s with
  | mk d => rfl

theorem natReprGo_chars : ∀ (fuel n : Nat), ∀ c ∈ natReprGo fuel n, c ≠ '_' := by
  intro fuel
  induction fuel with
  | zero => intro n c h; simp [natReprGo] at h
  | succ fuel ih =>
    intro n c h
    have hd : ∀ k, k < 10 → Nat.digitChar k ≠ '_' := by decide
    rw [natReprGo] at h
    by_cases h10 : n < 10
    · rw [if_pos h10] at h
      simp only [List.mem_singleton] at h
      subst h
      exact hd n h10
    · rw [if_neg h10] at h
      rcases List.mem_append.mp h with h | h
      · exact ih _ _ h
      · simp only [List.mem_singleton] at h
        subst h
        exact hd _ (Nat.mod_lt _ (by omega))

theorem natRepr_head (n : Nat) : headUnderscore (natRepr n) = false := by
  unfold natRepr headUnderscore
  cases hl : natReprGo (n + 1) n with
  | nil => rfl
  | cons c rest =>
    have hc := natReprGo_chars (n + 1) n c (by rw [hl]; exact List.mem_cons_self _ _)
    simp [hc]

theorem headUnderscore_cons (c : Char) (l : List Char) :
    headUnderscore (String.mk (c :: l)) = decide (c = '_') := rfl

theorem serialize_not_underscore (v : JValue) : headUnderscore (serialize v) = false := by
  cases v with
  | null => rfl
  | bool b => cases b <;> rfl
  | num n =>
    show headUnderscore (intRepr n) = false
    cases n with
    | ofNat m => exact natRepr_head m
    | negSucc m =>
      show headUnderscore ("-" ++ natRepr (m + 1)) = false
      cases hnr : natRepr (m + 1) with
      | mk d => rfl
  | str s =>
    show headUnderscore ("\"" ++ String.mk (s.data.foldr (fun c acc => escapeChar c ++ acc) []) ++ "\"") = false
    rfl
  | arr items =>
    show headUnderscore ("[" ++ serializeList items ++ "]") = false
    cases hs : serializeList items with
    | mk d => rfl
  | obj fields =>
    show headUnderscore ("\x7b" ++ serializeFields fields ++ "\x7d") = false
    cases hs : serializeFields fields with
    | mk d => rfl

theorem flmJsGo_span (a b : List String) (alo ahi blo bhi : Nat)
    (old : List (Nat × Nat)) (i : Nat)
    (hold : ∀ p ∈ old, EntryBounds alo blo bhi i p ∧ RunEnd a b (i - 1) p.1 p.2)
    (hi1 : alo ≤ i) (hi2 : i < ahi) :
    ∀ (js : List Nat), (∀ j ∈ js, blo ≤ j ∧ j < bhi ∧ b.getD j "" = a.getD i "") →
    ∀ (acc : List (Nat × Nat)) (best : DMatch),
      (∀ p ∈ acc, EntryBounds alo blo bhi (i + 1) p ∧ RunEnd a b i p.1 p.2) →
      BestBounds alo ahi blo bhi best → MatchSpan a b best →
      (∀ p ∈ (flmJsGo old i js acc best).1,
          EntryBounds alo blo bhi (i + 1) p ∧ RunEnd a b i p.1 p.2) ∧
        BestBounds alo ahi blo bhi (flmJsGo old i js acc best).2 ∧
        MatchSpan a b (flmJsGo old i js acc best).2 := by
  intro js
  induction js with
  | nil => intro _ acc best hacc hbb hbs; exact ⟨hacc, hbb, hbs⟩
  | cons j rest ih =>
    intro hjs acc best hacc hbb hbs
    obtain ⟨hjb, hjh, hjeq⟩ := hjs j (List.mem_cons_self _ _)
    have hrest : ∀ x ∈ rest, blo ≤ x ∧ x < bhi ∧ b.getD x "" = a.getD i "" :=
      fun x hx => hjs x (List.mem_cons_of_mem _ hx)
    have hkbound : 1 ≤ (if j = 0 then 0 else j2find old (j - 1)) + 1 ∧
        alo + ((if j = 0 then 0 else j2find old (j - 1)) + 1) ≤ i + 1 ∧
        blo + ((if j = 0 then 0 else j2find old (j - 1)) + 1) ≤ j + 1 := by
      by_cases hj0 : j = 0
      · rw [if_pos hj0]
        subst hj0
        omega
      · rw [if_neg hj0]
        by_cases hz : j2find old (j - 1) = 0
        · rw [hz]; omega
        · have hm := (hold _ (j2find_mem hz)).1
          unfold EntryBounds at hm
          simp only at hm
          omega
    have hrun : RunEnd a b i j ((if j = 0 then 0 else j2find old (j - 1)) + 1) := by
      intro t ht
      cases t with
      | zero => simpa using hjeq.symm
      | succ s =>
        by_cases hj0 : j = 0
        · rw [if_pos hj0] at ht; omega
        · rw [if_neg hj0] at ht
          have hz : j2find old (j - 1) ≠ 0 := by omega
          have hm := hold _ (j2find_mem hz)
          have hrn := hm.2 s (by omega)
          rw [show i - (s + 1) = i - 1 - s by omega,
            show j - (s + 1) = j - 1 - s by omega]
          exact hrn
    simp only [flmJsGo]
    have hacc' : ∀ p ∈ (j, (if j = 0 then 0 else j2find old (j - 1)) + 1) :: acc,
        EntryBounds alo blo bhi (i + 1) p ∧ RunEnd a b i p.1 p.2 := by
      intro p hp
      rcases List.mem_cons.mp hp with h | h
      · subst h; exact ⟨⟨hkbound.1, hkbound.2.1, hkbound.2.2, hjh⟩, hrun⟩
      · exact hacc p h
    by_cases hcmp : best.size < (if j = 0 then 0 else j2find old (j - 1)) + 1
    · rw [if_pos hcmp]
      apply ih hrest _ _ hacc'
      · left
        simp only
        omega
      · intro t ht
        simp only at ht ⊢
        have h1 : (if j = 0 then 0 else j2find old (j - 1)) + 1 ≤ i + 1 := by omega
        have h2 : (if j = 0 then 0 else j2find old (j - 1)) + 1 ≤ j + 1 := by omega
        have hr := hrun ((if j = 0 then 0 else j2find old (j - 1)) + 1 - 1 - t) (by omega)
        rw [show i + 1 - ((if j = 0 then 0 else j2find old (j - 1)) + 1) + t =
            i - ((if j = 0 then 0 else j2find old (j - 1)) + 1 - 1 - t) by omega,
          show j + 1 - ((if j = 0 then 0 else j2find old (j - 1)) + 1) + t =
            j - ((if j = 0 then 0 else j2find old (j - 1)) + 1 - 1 - t) by omega]
        exact hr
    · rw [if_neg hcmp]
      exact ih hrest _ _ hacc' hbb hbs

theorem flmOuterGo_span (a b : List String) (alo ahi blo bhi : Nat) :
    ∀ (n i0 : Nat), alo ≤ i0 → i0 + n ≤ ahi →
    ∀ (j2len : List (Nat × Nat)) (best : DMatch),
      (∀ p ∈ j2len, EntryBounds alo blo bhi i0 p ∧ RunEnd a b (i0 - 1) p.1 p.2) →
      BestBounds alo ahi blo bhi best → MatchSpan a b best →
      BestBounds alo ahi blo bhi
          (flmOuterGo a b blo bhi (List.range' i0 n) j2len best) ∧
        MatchSpan a b (flmOuterGo a b blo bhi (List.range' i0 n) j2len best) := by
  intro n
  induction n with
  | zero =>
    intro i0 _ _ j2len best _ hbb hbs
    simpa [flmOuterGo] using ⟨hbb, hbs⟩
  | succ n ih =>
    intro i0 h1 h2 j2len best hold hbb hbs
    rw [List.range'_succ]
    simp only [flmOuterGo]
    have hjs : ∀ j ∈ (List.range bhi).filter
        (fun j => decide (blo ≤ j) && decide (b.getD j "" = a.getD i0 "")),
        blo ≤ j ∧ j < bhi ∧ b.getD j "" = a.getD i0 "" := by
      intro j hj
      have h' := List.mem_filter.mp hj
      have hr := List.mem_range.mp h'.1
      have hb' := h'.2
      simp only [Bool.and_eq_true, decide_eq_true_eq] at hb'
      exact ⟨hb'.1, hr, hb'.2⟩
    have hspec := flmJsGo_span a b alo ahi blo bhi j2len i0 hold h1 (by omega)
      _ hjs [] best (by intro p hp; simp at hp) hbb hbs
    have hold' : ∀ p ∈ (flmJsGo j2len i0 ((List.range bhi).filter
        (fun j => decide (blo ≤ j) && decide (b.getD j "" = a.getD i0 ""))) [] best).1,
        EntryBounds alo blo bhi (i0 + 1) p ∧ RunEnd a b (i0 + 1 - 1) p.1 p.2 := by
      intro p hp
      have := hspec.1 p hp
      rw [Nat.add_sub_cancel]
      exact this
    exact ih (i0 + 1) (by omega) (by omega) _ _ hold' hspec.2.1 hspec.2.2

theorem flmCore_span (a b : List String) (alo ahi blo bhi : Nat) :
    MatchSpan a b (flmCore a b alo ahi blo bhi) := by
  unfold flmCore
  by_cases h : alo ≤ ahi
  · exact (flmOuterGo_span a b alo ahi blo bhi (ahi - alo) alo (le_refl _) (by omega)
      [] _ (by intro p hp; simp at hp) (Or.inr ⟨rfl, rfl, rfl⟩)
      (by intro t ht; simp at ht)).2
  · have hz : ahi - alo = 0 := by omega
    rw [hz]
    simp only [List.range', flmOuterGo]
    intro t ht
    simp at ht

theorem extLeftGo_span (a b : List String) (alo blo : Nat) :
    ∀ (fuel : Nat) (m : DMatch), MatchSpan a b m →
      MatchSpan a b (extLeftGo a b alo blo fuel m) := by
  intro fuel
  induction fuel with
  | zero => intro m hm; exact hm
  | succ fuel ih =>
    intro m hm
    rw [extLeftGo]
    by_cases h : alo < m.firstStart ∧ blo < m.secondStart ∧
        a.getD (m.firstStart - 1) "" = b.getD (m.secondStart - 1) ""
    · rw [if_pos h]
      apply ih
      intro t ht
      simp only at ht ⊢
      cases t with
      | zero => simpa using h.2.2
      | succ s =>
        rw [show m.firstStart - 1 + (s + 1) = m.firstStart + s by omega,
          show m.secondStart - 1 + (s + 1) = m.secondStart + s by omega]
        exact hm s (by omega)
    · rw [if_neg h]
      exact hm

theorem extRightGo_span (a b : List String) (ahi bhi : Nat) :
    ∀ (fuel : Nat) (m : DMatch), MatchSpan a b m →
      MatchSpan a b (extRightGo a b ahi bhi fuel m) := by
  intro fuel
  induction fuel with
  | zero => intro m hm; exact hm
  | succ fuel ih =>
    intro m hm
    rw [extRightGo]
    by_cases h : m.firstStart + m.size < ahi ∧ m.secondStart + m.size < bhi ∧
        a.getD (m.firstStart + m.size) "" = b.getD (m.secondStart + m.size) ""
    · rw [if_pos h]
      apply ih
      intro t ht
      simp only at ht ⊢
      by_cases ht' : t < m.size
      · exact hm t ht'
      · have hts : t = m.size := by omega
        subst hts
        exact h.2.2
    · rw [if_neg h]
      exact hm

theorem findLongestMatch_span (a b : List String) (alo ahi blo bhi : Nat) :
    MatchSpan a b (findLongestMatch a b alo ahi blo bhi) := by
  unfold findLongestMatch extRight extLeft
  exact extRightGo_span a b ahi bhi _ _
    (extLeftGo_span a b alo blo _ _ (flmCore_span a b alo ahi blo bhi))


theorem matchingBlocksGo_good (a b : List String) :
    ∀ (fuel alo ahi blo bhi : Nat), ahi ≤ a.length → bhi ≤ b.length →
      ∀ m ∈ matchingBlocksGo a b fuel alo ahi blo bhi, GoodBlock a b m := by
  intro fuel
  induction fuel with
  | zero => intro alo ahi blo bhi _ _ m hm; simp [matchingBlocksGo] at hm
  | succ fuel ih =>
    intro alo ahi blo bhi ha hb m hm
    rw [matchingBlocksGo] at hm
    by_cases hsz : 0 < (findLongestMatch a b alo ahi blo bhi).size
    · rw [if_pos hsz] at hm
      have hbd := findLongestMatch_bounds a b alo ahi blo bhi
      have hsp := findLongestMatch_span a b alo ahi blo bhi
      rcases hbd with ⟨h1, h2, h3, h4⟩ | ⟨_, _, h0⟩
      · rcases List.mem_append.mp hm with hm | hm
        · rcases List.mem_append.mp hm with hm | hm
          · by_cases hw : alo < (findLongestMatch a b alo ahi blo bhi).firstStart ∧
                blo < (findLongestMatch a b alo ahi blo bhi).secondStart
            · rw [if_pos hw] at hm
              exact ih alo _ blo _ (by omega) (by omega) m hm
            · rw [if_neg hw] at hm; simp at hm
          · simp only [List.mem_singleton] at hm
            subst hm
            exact ⟨by omega, by omega, hsp⟩
        · by_cases hw : (findLongestMatch a b alo ahi blo bhi).firstStart +
              (findLongestMatch a b alo ahi blo bhi).size < ahi ∧
              (findLongestMatch a b alo ahi blo bhi).secondStart +
              (findLongestMatch a b alo ahi blo bhi).size < bhi
          · rw [if_pos hw] at hm
            exact ih _ ahi _ bhi ha hb m hm
          · rw [if_neg hw] at hm; simp at hm
      · omega
    · rw [if_neg hsz] at hm; simp at hm

theorem mergeBlocks_good (a b : List String) :
    ∀ (blocks : List DMatch) (t : Nat × Nat × Nat),
      (∀ m ∈ blocks, GoodBlock a b m) →
      GoodBlock a b (DMatch.mk t.1 t.2.1 t.2.2) →
      ∀ m ∈ mergeBlocks blocks t, GoodBlock a b m := by
  intro blocks
  induction blocks with
  | nil =>
    intro t hbs ht m hm
    obtain ⟨fs, ss, size⟩ := t
    rw [mergeBlocks] at hm
    by_cases hz : size ≠ 0
    · rw [if_pos hz] at hm
      simp only [List.mem_singleton] at hm
      subst hm
      exact ht
    · rw [if_neg hz] at hm; simp at hm
  | cons mb rest ih =>
    intro t hbs ht m hm
    obtain ⟨fs, ss, size⟩ := t
    rw [mergeBlocks] at hm
    have hmb := hbs mb (List.mem_cons_self _ _)
    have hrest : ∀ x ∈ rest, GoodBlock a b x :=
      fun x hx => hbs x (List.mem_cons_of_mem _ hx)
    by_cases hadj : fs + size = mb.firstStart ∧ ss + size = mb.secondStart
    · rw [if_pos hadj] at hm
      apply ih _ hrest _ m hm
      refine ⟨?_, ?_, ?_⟩
      · have := hmb.1; simp only; omega
      · have := hmb.2.1; simp only; omega
      · intro u hu
        simp only at hu ⊢
        by_cases hu1 : u < size
        · exact ht.2.2 u hu1
        · have h2 := hmb.2.2 (u - size) (by omega)
          rw [show fs + u = mb.firstStart + (u - size) by omega,
            show ss + u = mb.secondStart + (u - size) by omega]
          exact h2
    · rw [if_neg hadj] at hm
      rcases List.mem_append.mp hm with hm | hm
      · by_cases hz : size ≠ 0
        · rw [if_pos hz] at hm
          simp only [List.mem_singleton] at hm
          subst hm
          exact ht
        · rw [if_neg hz] at hm; simp at hm
      · exact ih _ hrest hmb m hm

theorem getMatchingBlocks_good (a b : List String) :
    ∀ m ∈ getMatchingBlocks a b, GoodBlock a b m := by
  intro m hm
  unfold getMatchingBlocks at hm
  rcases List.mem_append.mp hm with hm | hm
  · apply mergeBlocks_good a b _ _ ?_ ?_ m hm
    · intro x hx
      unfold matchingBlocksRec at hx
      exact matchingBlocksGo_good a b _ 0 a.length 0 b.length (le_refl _) (le_refl _) x hx
    · exact ⟨Nat.zero_le _, Nat.zero_le _, by intro t ht; simp at ht⟩
  · simp only [List.mem_singleton] at hm
    subst hm
    exact ⟨by simp, by simp, by intro t ht; simp at ht⟩

theorem sliceOf_eq_of_good (a b : List String) (m : DMatch) (h : GoodBlock a b m) :
    sliceOf a m.firstStart (m.firstStart + m.size) =
      sliceOf b m.secondStart (m.secondStart + m.size) := by
  obtain ⟨h1, h2, hsp⟩ := h
  apply List.ext_getElem
  · unfold sliceOf
    simp only [List.length_drop, List.length_take]
    omega
  · intro n hn1 hn2
    unfold sliceOf at hn1 hn2 ⊢
    have hlen1 : ((a.take (m.firstStart + m.size)).drop m.firstStart).length = m.size := by
      simp only [List.length_drop, List.length_take]; omega
    have hlen2 : ((b.take (m.secondStart + m.size)).drop m.secondStart).length = m.size := by
      simp only [List.length_drop, List.length_take]; omega
    have hn : n < m.size := by rw [hlen1] at hn1; exact hn1
    rw [List.getElem_drop, List.getElem_drop, List.getElem_take, List.getElem_take]
    have hsp' := hsp n hn
    rw [List.getD_eq_getElem a "" (by omega), List.getD_eq_getElem b "" (by omega)] at hsp'
    exact hsp'

theorem opcodesLoop_equal_slices (a b : List String) :
    ∀ (blocks : List DMatch) (i j : Nat),
      (∀ m ∈ blocks, GoodBlock a b m) →
      ∀ op ∈ opcodesLoop blocks i j, op.tag = DTag.equal →
        sliceOf a op.firstStart op.firstEnd = sliceOf b op.secondStart op.secondEnd := by
  intro blocks
  induction blocks with
  | nil => intro i j _ op hop _; simp [opcodesLoop] at hop
  | cons m rest ih =>
    intro i j hbs op hop htag
    have hm := hbs m (List.mem_cons_self _ _)
    have hrest : ∀ x ∈ rest, GoodBlock a b x :=
      fun x hx => hbs x (List.mem_cons_of_mem _ hx)
    rw [opcodesLoop] at hop
    rcases List.mem_append.mp hop with hop | hop
    · rcases List.mem_append.mp hop with hop | hop
      · exfalso
        rcases (by
          split at hop
          · exact Or.inl hop
          · split at hop
            · exact Or.inr (Or.inl hop)
            · split at hop
              · exact Or.inr (Or.inr (Or.inl hop))
              · exact Or.inr (Or.inr (Or.inr hop)) :
            op ∈ [DOpcode.mk DTag.replace i m.firstStart j m.secondStart] ∨
            op ∈ [DOpcode.mk DTag.delete i m.firstStart j m.secondStart] ∨
            op ∈ [DOpcode.mk DTag.insert i m.firstStart j m.secondStart] ∨
            op ∈ ([] : List DOpcode)) with h | h | h | h <;>
          first
            | (simp only [List.mem_singleton] at h; subst h; exact absurd htag (by simp))
            | simp at h
      · split at hop
        · simp only [List.mem_singleton] at hop
          subst hop
          exact sliceOf_eq_of_good a b m hm
        · simp at hop
    · exact ih _ _ hrest op hop htag

theorem getOpcodes_equal_slices (a b : List String) (op : DOpcode)
    (hop : op ∈ getOpcodes a b) (htag : op.tag = DTag.equal) :
    sliceOf a op.firstStart op.firstEnd = sliceOf b op.secondStart op.secondEnd := by
  unfold getOpcodes at hop
  exact opcodesLoop_equal_slices a b _ 0 0 (getMatchingBlocks_good a b) op hop htag

/-! ## Scalarization invariants and the C8 theorem -/

theorem scalarizeStepFuzzy_mono {next : DiffFun} {item : JValue} {index : Nat}
    {v0 : Option String} {or0 : JMap} {fz : Option JMap} {v1 : Option String} {or1 : JMap}
    (h : scalarizeStepFuzzy next item index v0 or0 fz = some (v1, or1)) :
    ∀ k, mapContains k or0 = true → mapContains k or1 = true := by
  intro k hk
  unfold scalarizeStepFuzzy at h
  repeat' first
    | split at h
    | dsimp only at h
  all_goals first
    | exact Option.noConfusion h
    | (injection h with h; injection h with h1 h2; subst h2; exact hk)
    | (injection h with h; injection h with h1 h2; subst h2
       exact mapContains_insert_mono _ _ hk)

theorem scalarizeStepFuzzy_cases {next : DiffFun} {item : JValue} {index : Nat}
    {v0 : Option String} {or0 : JMap} {fz : Option JMap} {v1 : Option String} {or1 : JMap}
    (h : scalarizeStepFuzzy next item index v0 or0 fz = some (v1, or1)) :
    (v1 = v0 ∧ or1 = or0) ∨ ∃ key, v1 = some key ∧ mapContains key or1 = true := by
  unfold scalarizeStepFuzzy at h
  repeat' first
    | split at h
    | dsimp only at h
  all_goals first
    | exact Option.noConfusion h
    | (injection h with h; injection h with h1 h2; exact Or.inl ⟨h1.symm, h2.symm⟩)
    | (injection h with h; injection h with h1 h2
       refine Or.inr ⟨_, h1.symm, ?_⟩
       rw [← h2]
       exact mapContains_insert_self _ _ _)

theorem scalarizeGo_none_underscore (next : DiffFun) :
    ∀ (items : List (Nat × JValue)) (st st' : ScalState),
      scalarizeGo next none items st = some st' →
      (∀ k, mapContains k st.2.2 = true → headUnderscore k = true) →
      ∀ k, mapContains k st'.2.2 = true → headUnderscore k = true := by
  intro items
  induction items with
  | nil =>
    intro st st' h hinv
    rw [scalarizeGo] at h
    injection h with h
    subst h
    exact hinv
  | cons p rest ih =>
    intro st st' h hinv
    obtain ⟨index, item⟩ := p
    obtain ⟨toks, sv, or0⟩ := st
    cases item <;>
      simp only [scalarizeGo, scalarizeStepFuzzy] at h <;>
      (repeat' first
        | split at h
        | dsimp only at h) <;>
      first
      | exact Option.noConfusion h
      | exact ih _ _ h hinv
      | (refine ih _ _ h ?_
         intro k hk
         rcases mapContains_insert_elim hk with he | hk2
         · subst he; exact headUnderscore_scalar_prefix _
         · rcases mapContains_insert_elim hk2 with he | hk3
           · subst he; rfl
           · exact hinv k hk3)

theorem scalarizeGo_toks (next : DiffFun) (fz : Option JMap) :
    ∀ (items : List (Nat × JValue)) (st st' : ScalState),
      scalarizeGo next fz items st = some st' →
      (∀ k, k ∈ st.1 → mapContains k st.2.2 = true ∨ headUnderscore k = false) →
      ∀ k, k ∈ st'.1 → mapContains k st'.2.2 = true ∨ headUnderscore k = false := by
  intro items
  induction items with
  | nil =>
    intro st st' h hinv
    rw [scalarizeGo] at h
    injection h with h
    subst h
    exact hinv
  | cons p rest ih =>
    intro st st' h hinv
    obtain ⟨index, item⟩ := p
    obtain ⟨toks, sv, or0⟩ := st
    cases item <;>
      simp only [scalarizeGo] at h <;>
      (repeat' first
        | split at h
        | dsimp only at h) <;>
      first
      | exact Option.noConfusion h
      | (refine ih _ _ h ?_
         intro k hk
         rcases List.mem_append.mp hk with hk | hk
         · rcases hinv k hk with hc | hc
           · exact Or.inl (scalarizeStepFuzzy_mono (by assumption) k hc)
           · exact Or.inr hc
         · simp only [List.mem_singleton] at hk
           subst hk
           rcases scalarizeStepFuzzy_cases (by assumption) with ⟨h1, h2⟩ | ⟨key, hkey, hc⟩
           · first
              | (injection h1 with h1; subst h1; exact Or.inr (serialize_not_underscore _))
              | exact Option.noConfusion h1
           · injection hkey with hkey
             subst hkey
             exact Or.inl hc)
      | (refine ih _ _ h ?_
         intro k hk
         rcases List.mem_append.mp hk with hk | hk
         · rcases hinv k hk with hc | hc
           · exact Or.inl (mapContains_insert_mono _ _ (mapContains_insert_mono _ _
               (scalarizeStepFuzzy_mono (by assumption) k hc)))
           · exact Or.inr hc
         · simp only [List.mem_singleton] at hk
           subst hk
           exact Or.inl (mapContains_insert_self _ _ _))

theorem mem_sliceOf {k : String} {l : List String} {s e : Nat}
    (h : k ∈ sliceOf l s e) : k ∈ l :=
  List.mem_of_mem_take (List.mem_of_mem_drop h)

/-- C8: the `assert!` in the `"equal"` branch of `array_diff` never fires.
For any nested-diff function, any two input arrays, and the two
scalarization passes exactly as `array_diff` chains them, every key of an
`"equal"` opcode slice that is classified as a de-scalarized structural
element in `originals1` is so classified in `originals2` as well: equal
opcodes cover genuinely equal token runs, every token of the second pass is
either a key of `originals2` or a serialized scalar (which never starts
with `'_'`), and every key of `originals1` starts with `"__"`.  (In the
model the assertion failure is the `none` result of `equalGo`, which makes
a classification disagreement fatal rather than silently mis-rendered.) -/
theorem c8_equal_tokens_scalarization_agrees (next : DiffFun) (a1 a2 : List JValue)
    (s1 s2 : List String) (sv1 or1 sv2 or2 : JMap) (nv : JValue)
    (h1 : scalarize next a1 [] [("__next", JValue.num 1)] none = some (s1, sv1, or1))
    (hg : mapGet "__next" or1 = some nv)
    (h2 : scalarize next a2 [] [("__next", nv)] (some or1) = some (s2, sv2, or2))
    (op : DOpcode) (hop : op ∈ getOpcodes s1 s2) (htag : op.tag = DTag.equal)
    (key : String) (hkey : key ∈ sliceOf s1 op.firstStart op.firstEnd)
    (hscal : is_scalarized key or1 = true) :
    is_scalarized key or2 = true := by
  have hund : ∀ k, mapContains k or1 = true → headUnderscore k = true := by
    apply scalarizeGo_none_underscore next a1.enum _ (s1, sv1, or1) h1
    intro k hk
    by_cases he : "__next" = k
    · subst he; rfl
    · exfalso
      simp [mapContains, mapGet, he] at hk
  have htoks : ∀ k, k ∈ s2 → mapContains k or2 = true ∨ headUnderscore k = false := by
    apply scalarizeGo_toks next (some or1) a2.enum _ (s2, sv2, or2) h2
    intro k hk
    simp at hk
  have hslice := getOpcodes_equal_slices s1 s2 op hop htag
  have hk2 : key ∈ s2 := mem_sliceOf (hslice ▸ hkey)
  rcases htoks key hk2 with hc | hc
  · exact hc
  · rw [hund key hscal] at hc
    exact absurd hc (by simp)

/-- C8 witness: the theorem applied to the two scalarization passes over
`[{}]` against `[{}]`, where the fuzzy matcher reuses the pass-1 token
`"__$!SCALAR1"` and both passes classify it as de-scalarized. -/
theorem c8_equal_tokens_scalarization_agrees_witness :
    scalarize (diffF 1) [JValue.obj []] [] [("__next", JValue.num 1)] none =
        some (["__$!SCALAR1"], [],
          [("__$!SCALAR1", JValue.obj []), ("__next", JValue.num 2)]) ∧
      is_scalarized "__$!SCALAR1"
        [("__$!SCALAR1", JValue.obj []), ("__next", JValue.num 2)] = true :=
  ⟨by rfl,
    c8_equal_tokens_scalarization_agrees (diffF 1) [JValue.obj []] [JValue.obj []]
      ["__$!SCALAR1"] ["__$!SCALAR1"] []
      [("__$!SCALAR1", JValue.obj []), ("__next", JValue.num 2)] []
      [("__$!SCALAR1", JValue.obj []), ("__next", JValue.num 2)]
      (JValue.num 2) (by rfl) (by rfl) (by rfl)
      (DOpcode.mk DTag.equal 0 1 0 1) (by decide) rfl
      "__$!SCALAR1" (by decide) (by rfl)⟩
